import Mathlib

/-!
Verification of the `fileutil` editing engine (`edit.go`).

File contents are modelled as `List Char` (one `Char` per byte of the Go
`[]byte` values; no multi-byte rune behaviour is relevant to the claims).
Each `Editer` operation is embedded as a pure function from the file's
content to a trace of I/O events (`read` of content, `commit` = the
seek/write/truncate rewrite of `Editer.rewrite`, edit.go:347-361) together
with an `Except` result carrying `some newContent` when the operation
commits, `none` when it returns without committing.

The Go `regexp` package is external to the repository.  It is modelled by
the pattern language `Pattern`/`Re` below: a literal string pattern, the
pattern `[[:space:]]*LIT[[:space:]]*` (exactly the shape `CommentOut`
builds around the comment marker, edit.go:189), and a pattern that fails
to compile.  Matching follows Go's leftmost, greedy, non-overlapping
`ReplaceAllFunc` scan.
-/

namespace Fileutil

/-- Model of a compiled regular expression (`*regexp.Regexp`): either a
literal string, or `[[:space:]]*s[[:space:]]*` for a literal `s`. -/
inductive Re where
  | relit (s : List Char) : Re
  | respaced (s : List Char) : Re
deriving DecidableEq, Repr

/-- Model of a regular-expression source string as handed to
`regexp.Compile`: a literal, the whitespace-wrapped literal built by
`CommentOut`, or a string that fails to compile. -/
inductive Pattern where
  | lit (s : List Char) : Pattern
  | spacedLit (s : List Char) : Pattern
  | invalid : Pattern
deriving DecidableEq, Repr

instance exceptDecEq {ε α : Type} [DecidableEq ε] [DecidableEq α] :
    DecidableEq (Except ε α)
  | .ok a, .ok b =>
    if h : a = b then .isTrue (by rw [h])
    else .isFalse (fun hc => h (Except.ok.inj hc))
  | .error a, .error b =>
    if h : a = b then .isTrue (by rw [h])
    else .isFalse (fun hc => h (Except.error.inj hc))
  | .ok _, .error _ => .isFalse (fun hc => Except.noConfusion hc)
  | .error _, .ok _ => .isFalse (fun hc => Except.noConfusion hc)

/-- Error kinds of the package (spec §7).  `configErr` is `errComment`
(declared outside `src/`; modelled from the spec's `ConfigurationError`),
`patternErr` is a `regexp.Compile` failure, `ioErr` an I/O error such as
`io.EOF` escaping from `ed.file.Read`. -/
inductive Err where
  | configErr : Err
  | patternErr : Err
  | ioErr : Err
deriving DecidableEq, Repr

/-- Model of `regexp.Compile` (edit.go:124, 250, 294, 300). -/
def compile : Pattern → Except Err Re
  | .lit s => .ok (.relit s)
  | .spacedLit s => .ok (.respaced s)
  | .invalid => .error .patternErr

/-- Total variant of `compile` on the compilable patterns. -/
def compileOk : Pattern → Re
  | .lit s => .relit s
  | .spacedLit s => .respaced s
  | .invalid => .relit []

/-- Membership in Go's `[[:space:]]` character class. -/
def isSpaceCh (c : Char) : Bool :=
  c = ' ' || c = '\t' || c = '\n' || c = '\x0b' || c = '\x0c' || c = '\r'

/-- Length of the maximal run of `[[:space:]]` characters at the head. -/
def countSpaces : List Char → Nat
  | [] => 0
  | c :: rest => if isSpaceCh c then countSpaces rest + 1 else 0

/-- Greedy attempt of `[[:space:]]*s[[:space:]]*` at the head of `l`:
try to consume `k` leading space characters (largest first, as a greedy
star does), then the literal `s`, then a maximal run of trailing space
characters.  Returns the length of the match. -/
def spacedTry (s l : List Char) : Nat → Option Nat
  | 0 =>
    if s.isPrefixOf l then some (s.length + countSpaces (l.drop s.length))
    else none
  | k + 1 =>
    if s.isPrefixOf (l.drop (k + 1)) then
      some (k + 1 + s.length + countSpaces (l.drop (k + 1 + s.length)))
    else spacedTry s l k

/-- Length of the match of `re` starting exactly at the head of `l`,
if any. -/
def matchLenAt : Re → List Char → Option Nat
  | .relit s, l => if s.isPrefixOf l then some s.length else none
  | .respaced s, l => spacedTry s l (countSpaces l)

/-- Model of `Regexp.Match` (edit.go:149, 320): the pattern matches
somewhere in `l`. -/
def reMatch (re : Re) : List Char → Bool
  | [] => (matchLenAt re []).isSome
  | c :: rest => (matchLenAt re (c :: rest)).isSome || reMatch re rest

/-- Fuelled leftmost, non-overlapping scan underlying `ReplaceAllFunc`:
decompose `l` into unmatched characters (`.inl`) and matched slices
(`.inr`).  After an empty match the scan emits the current character and
advances one position, as Go does.  `fuel > l.length` suffices. -/
def tokenizeF (re : Re) : Nat → List Char → List (Char ⊕ List Char)
  | 0, _ => []
  | fuel + 1, l =>
    match matchLenAt re l with
    | some (L + 1) => .inr (l.take (L + 1)) :: tokenizeF re fuel (l.drop (L + 1))
    | some 0 =>
      match l with
      | [] => [.inr []]
      | c :: rest => .inr [] :: .inl c :: tokenizeF re fuel rest
    | none =>
      match l with
      | [] => []
      | c :: rest => .inl c :: tokenizeF re fuel rest

/-- Leftmost non-overlapping match decomposition of `l` under `re`. -/
def tokenize (re : Re) (l : List Char) : List (Char ⊕ List Char) :=
  tokenizeF re (l.length + 1) l

/-- Reassemble a token list into the text it came from. -/
def joinTokens : List (Char ⊕ List Char) → List Char
  | [] => []
  | .inl c :: ts => c :: joinTokens ts
  | .inr m :: ts => m ++ joinTokens ts

/-- Number of matches in a token list. -/
def cntR (ts : List (Char ⊕ List Char)) : Nat :=
  ts.countP (fun t => t.isRight)

/-- Run a stateful replacement callback over the matches of a token
list, keeping the unmatched characters: this is `ReplaceAllFunc` with a
closure of state `σ` (edit.go:258, 323). -/
def runTokens (f : σ → List Char → σ × List Char) :
    List (Char ⊕ List Char) → σ → List Char × σ
  | [], st => ([], st)
  | .inl c :: ts, st =>
    let r := runTokens f ts st
    (c :: r.1, r.2)
  | .inr m :: ts, st =>
    let fr := f st m
    let r := runTokens f ts fr.1
    (fr.2 ++ r.1, r.2)

/-- Model of `Regexp.ReplaceAllFunc` with a stateful callback. -/
def replaceAllFunc (re : Re) (f : σ → List Char → σ × List Char)
    (st : σ) (l : List Char) : List Char × σ :=
  runTokens f (tokenize re l) st

/-- Number of leftmost non-overlapping matches of `re` in `l`. -/
def countM (re : Re) (l : List Char) : Nat :=
  cntR (tokenize re l)

/-- Replace the first `k` matches of a token list by `repl`, keeping the
remaining matches as their original text. -/
def replTokensK (repl : List Char) : List (Char ⊕ List Char) → Nat → List Char
  | [], _ => []
  | .inl c :: ts, k => c :: replTokensK repl ts k
  | .inr m :: ts, 0 => m ++ replTokensK repl ts 0
  | .inr _ :: ts, k + 1 => repl ++ replTokensK repl ts k

/-- Replace the first `k` leftmost matches of `re` in `l` by `repl`. -/
def replaceFirstK (re : Re) (repl : List Char) (k : Nat) (l : List Char) : List Char :=
  replTokensK repl (tokenize re l) k

/-- The replacement callback shared by `genReplace` (edit.go:258-268) and
`genReplaceAtLine` (edit.go:323-333): state is the remaining budget `i`
(a Go `int`) and the `isNew` flag; a match is replaced while `i ≠ 0`,
decrementing `i`, and every match sets `isNew`. -/
def replClosure (repl : List Char) : Int × Bool → List Char → (Int × Bool) × List Char :=
  fun st s => if st.1 ≠ 0 then ((st.1 - 1, true), repl) else ((st.1, true), s)

/-- Number of matches actually replaced by the budget `i`: all of them
when `i < 0`, at most `i` otherwise. -/
def budget (i : Int) (c : Nat) : Nat :=
  if i < 0 then c else min i.toNat c

/-- Configuration of an `Editer` (edit.go:28-31).  `Comment` is the
comment marker bytes, `Mode` the `ModeEdit` flag set. -/
structure ConfEditer where
  Comment : List Char
  Mode : Nat
deriving DecidableEq, Repr

/-- A whole-content replacement entry (edit.go:171-173).  `Search` is
the regular-expression source string, `Replace` the literal
replacement. -/
structure Replacer where
  Search : Pattern
  Replace : List Char
deriving DecidableEq, Repr

/-- A line-scoped replacement entry (edit.go:176-178). -/
structure ReplacerAtLine where
  Line : Pattern
  Search : Pattern
  Replace : List Char
deriving DecidableEq, Repr

/-- Observable file-handle events of one operation: a read of the
file's content and the commit performed by `Editer.rewrite`
(seek to 0, write, truncate). -/
inductive Ev where
  | read : Ev
  | commit : Ev
deriving DecidableEq, Repr

/-- Result of one operation: the event trace, and `ok (some c)` when the
operation committed new content `c`, `ok none` when it returned without
writing, `error e` when it failed (always before any write). -/
abbrev OpResult := List Ev × Except Err (Option (List Char))

/-- Content of the file after an operation: only a committed result
changes the bytes. -/
def fileAfter (C : List Char) (res : Except Err (Option (List Char))) : List Char :=
  match res with
  | .ok (some c) => c
  | _ => C

/-- Whether a pattern source compiles and matches somewhere in `l`. -/
def patMatches (p : Pattern) (l : List Char) : Bool :=
  match compile p with
  | .ok re => reMatch re l
  | .error _ => false

/-- Decomposition of the content into the sequence of lines returned by
the successful `ed.buf.ReadBytes('\n')` calls of the line loops
(edit.go:142-146, 313-317): each complete line includes its trailing
newline; a final segment with no newline is returned together with
`io.EOF`, upon which the loops break, so it is not part of the
sequence. -/
def splitLinesAux : List Char → List Char → List (List Char)
  | [], _ => []
  | c :: rest, acc =>
    if c = '\n' then (acc.reverse ++ ['\n']) :: splitLinesAux rest []
    else splitLinesAux rest (c :: acc)

/-- Complete lines of the content, in order. -/
def splitLines (C : List Char) : List (List Char) :=
  splitLinesAux C []

/-- Per-line body of `Editer.Comment` (edit.go:148-157): the first
pattern matching the line prepends `char` and stops the pattern loop;
the returned flag says whether the line was commented. -/
def commentLine (char : List Char) : List Re → List Char → List Char × Bool
  | [], line => (line, false)
  | re :: res, line =>
    if reMatch re line then (char ++ line, true)
    else commentLine char res line

/-- Line loop of `Editer.Comment`: transform every complete line and
accumulate `isNew`. -/
def commentLines (char : List Char) (res : List Re) : List (List Char) → List Char × Bool
  | [] => ([], false)
  | line :: rest =>
    let hd := commentLine char res line
    let tl := commentLines char res rest
    (hd.1 ++ tl.1, hd.2 || tl.2)

/-- Compile the line patterns of `Comment` (edit.go:121-130), stopping
at the first failure. -/
def compileAll : List Pattern → Except Err (List Re)
  | [] => .ok []
  | p :: ps => do
    let re ← compile p
    let res ← compileAll ps
    pure (re :: res)

/-- Model of `Editer.Comment` (edit.go:116-168).  The configuration is
checked first, then all patterns are compiled, and only then is the
content read; the result is committed only if some line matched. -/
def Editer.Comment (conf : Option ConfEditer) (reLine : List Pattern)
    (C : List Char) : OpResult :=
  match conf with
  | none => ([], .error .configErr)
  | some cf =>
    if cf.Comment = [] then ([], .error .configErr)
    else
      match compileAll reLine with
      | .error e => ([], .error e)
      | .ok res =>
        let char := cf.Comment ++ [' ']
        let r := commentLines char res (splitLines C)
        if r.2 then ([.read, .commit], .ok (some r.1))
        else ([.read], .ok none)

/-- A compiled `ReplacerAtLine` entry: line pattern, search pattern,
replacement (edit.go:289-307). -/
abbrev CEntry := Re × Re × List Char

/-- Compile all entries of `genReplaceAtLine`, line pattern before
search pattern, stopping at the first failure (edit.go:293-307). -/
def compileEntries : List ReplacerAtLine → Except Err (List CEntry)
  | [] => .ok []
  | e :: es => do
    let reL ← compile e.Line
    let reS ← compile e.Search
    let rest ← compileEntries es
    pure ((reL, reS, e.Replace) :: rest)

/-- Per-line body of `genReplaceAtLine` (edit.go:319-335): every entry
whose line pattern matches the current state of the line applies its
search/replace with a fresh budget `n`; `isNew` is threaded through. -/
def ralLine (n : Int) : List CEntry → List Char → Bool → List Char × Bool
  | [], line, isNew => (line, isNew)
  | ce :: ces, line, isNew =>
    if reMatch ce.1 line then
      let r := replaceAllFunc ce.2.1 (replClosure ce.2.2) (n, isNew) line
      ralLine n ces r.1 r.2.2
    else ralLine n ces line isNew

/-- Line loop of `genReplaceAtLine`: transform every complete line,
threading `isNew`. -/
def ralLines (n : Int) (ces : List CEntry) : List (List Char) → Bool → List Char × Bool
  | [], isNew => ([], isNew)
  | line :: rest, isNew =>
    let hd := ralLine n ces line isNew
    let tl := ralLines n ces rest hd.2
    (hd.1 ++ tl.1, tl.2)

/-- Model of `Editer.genReplaceAtLine` (edit.go:279-345): `n == 0`
returns at once; the entries are compiled before any content is read;
the rewritten lines are committed only if some replacement callback
fired. -/
def Editer.genReplaceAtLine (r : List ReplacerAtLine) (n : Int)
    (C : List Char) : OpResult :=
  if n = 0 then ([], .ok none)
  else
    match compileEntries r with
    | .error e => ([], .error e)
    | .ok ces =>
      let res := ralLines n ces (splitLines C) false
      if res.2 then ([.read, .commit], .ok (some res.1))
      else ([.read], .ok none)

/-- Entry loop of `genReplace` (edit.go:249-269): for each entry in
order, compile its pattern and run `ReplaceAllFunc` over the current
content with a fresh budget `n`, threading `isNew`. -/
def goEntries : List Replacer → Int → List Char → Bool → Except Err (List Char × Bool)
  | [], _, content, isNew => .ok (content, isNew)
  | r :: rs, n, content, isNew =>
    match compile r.Search with
    | .error e => .error e
    | .ok re =>
      let res := replaceAllFunc re (replClosure r.Replace) (n, isNew) content
      goEntries rs n res.1 res.2.2

/-- Model of `Editer.genReplace` (edit.go:234-275): `n == 0` returns at
once; otherwise the whole content is read first, then the entries are
processed; a commit happens only if some callback fired. -/
def Editer.genReplace (r : List Replacer) (n : Int) (C : List Char) : OpResult :=
  if n = 0 then ([], .ok none)
  else
    match goEntries r n C false with
    | .error e => ([.read], .error e)
    | .ok res =>
      if res.2 then ([.read, .commit], .ok (some res.1))
      else ([.read], .ok none)

/-- Model of `Editer.Replace` (edit.go:207-209). -/
def Editer.Replace (r : List Replacer) (C : List Char) : OpResult :=
  Editer.genReplace r (-1) C

/-- Model of `Editer.ReplaceN` (edit.go:215-217). -/
def Editer.ReplaceN (r : List Replacer) (n : Int) (C : List Char) : OpResult :=
  Editer.genReplace r n C

/-- Model of `Editer.ReplaceAtLine` (edit.go:220-222). -/
def Editer.ReplaceAtLine (r : List ReplacerAtLine) (C : List Char) : OpResult :=
  Editer.genReplaceAtLine r (-1) C

/-- Model of `Editer.ReplaceAtLineN` (edit.go:229-231). -/
def Editer.ReplaceAtLineN (r : List ReplacerAtLine) (n : Int) (C : List Char) : OpResult :=
  Editer.genReplaceAtLine r n C

/-- Model of `Editer.CommentOut` (edit.go:181-194): after the
configuration check it runs `ReplaceAtLineN` with limit 1, one entry
per caller pattern, whose search is
`[[:space:]]*` ++ marker ++ `[[:space:]]*` and whose replacement is
empty. -/
def Editer.CommentOut (conf : Option ConfEditer) (reLine : List Pattern)
    (C : List Char) : OpResult :=
  match conf with
  | none => ([], .error .configErr)
  | some cf =>
    if cf.Comment = [] then ([], .error .configErr)
    else
      Editer.ReplaceAtLineN
        (reLine.map (fun v => ⟨v, .spacedLit cf.Comment, []⟩)) 1 C

/-- The zero byte with which Go's `make([]byte, n)` fills a fresh
buffer. -/
def zeroCh : Char := Char.ofNat 0

/-- Model of a single `(*os.File).Read` into a fresh buffer of length
`len` at offset `off`: at most one read is performed; at end of file
with `len > 0` it returns `io.EOF`; on a short read the rest of the
buffer keeps its zero bytes and no error is reported. -/
def fileRead (C : List Char) (off len : Nat) : Except Err (List Char) :=
  if len = 0 then .ok []
  else
    let avail := (C.drop off).take len
    if avail.length = 0 then .error .ioErr
    else .ok (avail ++ List.replicate (len - avail.length) zeroCh)

/-- Model of `Editer.Delete` (edit.go:83-113): read `begin` bytes from
offset 0, then read into a fresh buffer of length
`size - (end - begin)` from offset `end`, write both buffers whole into
the accumulator, and commit it. -/
def Editer.Delete (C : List Char) (b e : Nat) : OpResult :=
  match fileRead C 0 b with
  | .error er => ([.read], .error er)
  | .ok d1 =>
    match fileRead C e (C.length - (e - b)) with
    | .error er => ([.read], .error er)
    | .ok d2 => ([.read, .commit], .ok (some (d1 ++ d2)))

/-! Unfolding lemmas for the operations, given the outcome of the
configuration check and of pattern compilation. -/

lemma Comment_unfold {m : List Char} {mode : Nat} {ps : List Pattern}
    {C : List Char} (hm : m ≠ []) {res : List Re}
    (hca : compileAll ps = .ok res) :
    Editer.Comment (some ⟨m, mode⟩) ps C =
      (if (commentLines (m ++ [' ']) res (splitLines C)).2 then
        ([.read, .commit], .ok (some (commentLines (m ++ [' ']) res (splitLines C)).1))
      else ([.read], .ok none)) := by
  have h0 : Editer.Comment (some ⟨m, mode⟩) ps C =
      (if m = [] then ([], .error .configErr)
       else
         match compileAll ps with
         | .error e => ([], .error e)
         | .ok res =>
           (if (commentLines (m ++ [' ']) res (splitLines C)).2 then
             ([.read, .commit],
               .ok (some (commentLines (m ++ [' ']) res (splitLines C)).1))
           else ([.read], .ok none))) := rfl
  rw [h0, if_neg hm, hca]

lemma Comment_unfold_err {m : List Char} {mode : Nat} {ps : List Pattern}
    {C : List Char} (hm : m ≠ []) {e : Err}
    (hca : compileAll ps = .error e) :
    Editer.Comment (some ⟨m, mode⟩) ps C = ([], .error e) := by
  have h0 : Editer.Comment (some ⟨m, mode⟩) ps C =
      (if m = [] then ([], .error .configErr)
       else
         match compileAll ps with
         | .error e => ([], .error e)
         | .ok res =>
           (if (commentLines (m ++ [' ']) res (splitLines C)).2 then
             ([.read, .commit],
               .ok (some (commentLines (m ++ [' ']) res (splitLines C)).1))
           else ([.read], .ok none))) := rfl
  rw [h0, if_neg hm, hca]

lemma CommentOut_unfold {m : List Char} {mode : Nat} (hm : m ≠ [])
    (ps : List Pattern) (C : List Char) :
    Editer.CommentOut (some ⟨m, mode⟩) ps C =
      Editer.ReplaceAtLineN (ps.map (fun v => ⟨v, .spacedLit m, []⟩)) 1 C := by
  have h0 : Editer.CommentOut (some ⟨m, mode⟩) ps C =
      (if m = [] then ([], .error .configErr)
       else Editer.ReplaceAtLineN (ps.map (fun v => ⟨v, .spacedLit m, []⟩)) 1 C) := rfl
  rw [h0, if_neg hm]

lemma genReplaceAtLine_unfold {es : List ReplacerAtLine} {n : Int}
    {C : List Char} (hn : n ≠ 0) {ces : List CEntry}
    (hce : compileEntries es = .ok ces) :
    Editer.genReplaceAtLine es n C =
      (if (ralLines n ces (splitLines C) false).2 then
        ([.read, .commit], .ok (some (ralLines n ces (splitLines C) false).1))
      else ([.read], .ok none)) := by
  unfold Editer.genReplaceAtLine
  rw [if_neg hn, hce]

lemma genReplaceAtLine_unfold_err {es : List ReplacerAtLine} {n : Int}
    {C : List Char} (hn : n ≠ 0) {e : Err}
    (hce : compileEntries es = .error e) :
    Editer.genReplaceAtLine es n C = ([], .error e) := by
  unfold Editer.genReplaceAtLine
  rw [if_neg hn, hce]

lemma genReplace_unfold {rs : List Replacer} {n : Int} {C : List Char}
    (hn : n ≠ 0) {pr : List Char × Bool}
    (hgo : goEntries rs n C false = .ok pr) :
    Editer.genReplace rs n C =
      (if pr.2 then ([.read, .commit], .ok (some pr.1))
      else ([.read], .ok none)) := by
  unfold Editer.genReplace
  rw [if_neg hn, hgo]

lemma genReplace_unfold_err {rs : List Replacer} {n : Int} {C : List Char}
    (hn : n ≠ 0) {e : Err} (hgo : goEntries rs n C false = .error e) :
    Editer.genReplace rs n C = ([.read], .error e) := by
  unfold Editer.genReplace
  rw [if_neg hn, hgo]

lemma Comment_commit {m : List Char} {mode : Nat} {ps : List Pattern}
    {C : List Char} (hm : m ≠ []) {res : List Re}
    (hca : compileAll ps = .ok res)
    (hflag : (commentLines (m ++ [' ']) res (splitLines C)).2 = true) :
    Editer.Comment (some ⟨m, mode⟩) ps C =
      ([.read, .commit], .ok (some (commentLines (m ++ [' ']) res (splitLines C)).1)) := by
  rw [Comment_unfold hm hca, if_pos hflag]

lemma Comment_nocommit {m : List Char} {mode : Nat} {ps : List Pattern}
    {C : List Char} (hm : m ≠ []) {res : List Re}
    (hca : compileAll ps = .ok res)
    (hflag : (commentLines (m ++ [' ']) res (splitLines C)).2 = false) :
    Editer.Comment (some ⟨m, mode⟩) ps C = ([.read], .ok none) := by
  rw [Comment_unfold hm hca, if_neg (by rw [hflag]; simp)]

lemma genReplaceAtLine_commit {es : List ReplacerAtLine} {n : Int}
    {C : List Char} (hn : n ≠ 0) {ces : List CEntry}
    (hce : compileEntries es = .ok ces)
    (hflag : (ralLines n ces (splitLines C) false).2 = true) :
    Editer.genReplaceAtLine es n C =
      ([.read, .commit], .ok (some (ralLines n ces (splitLines C) false).1)) := by
  rw [genReplaceAtLine_unfold hn hce, if_pos hflag]

lemma genReplaceAtLine_nocommit {es : List ReplacerAtLine} {n : Int}
    {C : List Char} (hn : n ≠ 0) {ces : List CEntry}
    (hce : compileEntries es = .ok ces)
    (hflag : (ralLines n ces (splitLines C) false).2 = false) :
    Editer.genReplaceAtLine es n C = ([.read], .ok none) := by
  rw [genReplaceAtLine_unfold hn hce, if_neg (by rw [hflag]; simp)]

lemma genReplace_commit {rs : List Replacer} {n : Int} {C : List Char}
    (hn : n ≠ 0) {pr : List Char × Bool}
    (hgo : goEntries rs n C false = .ok pr) (hp : pr.2 = true) :
    Editer.genReplace rs n C = ([.read, .commit], .ok (some pr.1)) := by
  rw [genReplace_unfold hn hgo, if_pos hp]

lemma genReplace_nocommit {rs : List Replacer} {n : Int} {C : List Char}
    (hn : n ≠ 0) {pr : List Char × Bool}
    (hgo : goEntries rs n C false = .ok pr) (hp : pr.2 = false) :
    Editer.genReplace rs n C = ([.read], .ok none) := by
  rw [genReplace_unfold hn hgo, if_neg (by rw [hp]; simp)]

@[simp] lemma fileAfter_ok_some (C c : List Char) :
    fileAfter C (.ok (some c)) = c := rfl

@[simp] lemma fileAfter_ok_none (C : List Char) :
    fileAfter C (.ok none) = C := rfl

@[simp] lemma fileAfter_error (C : List Char) (e : Err) :
    fileAfter C (.error e) = C := rfl

example : splitLines "ab\ncd\nef".toList = ["ab\n".toList, "cd\n".toList] := by decide

example : Editer.Delete "abcd".toList 1 2 =
    ([.read, .commit], .ok (some ['a', 'c', 'd', zeroCh])) := by decide

example : Editer.Delete "abcd".toList 0 2 =
    ([.read, .commit], .ok (some ['c', 'd'])) := by decide

example : Editer.Comment (some ⟨['#'], 0⟩) [.lit ['a']] "ab\ncd\n".toList =
    ([.read, .commit], .ok (some "# ab\ncd\n".toList)) := by decide

example : Editer.CommentOut (some ⟨['#'], 0⟩) [.lit ['a']] "# ab\ncd\n".toList =
    ([.read, .commit], .ok (some "ab\ncd\n".toList)) := by decide

example : Editer.ReplaceN [⟨.lit ['a'], ['X']⟩, ⟨.lit ['b'], ['Y']⟩] 1
    "aaabbb".toList = ([.read, .commit], .ok (some "XaaYbb".toList)) := by decide

example : Editer.ReplaceAtLineN [⟨.lit ['a'], .lit ['a'], ['X']⟩] 2
    "aaa\naaa\n".toList = ([.read, .commit], .ok (some "XXa\nXXa\n".toList)) := by decide

example : Editer.ReplaceAtLine [⟨.lit "foo".toList, .lit ['f'], ['F']⟩]
    "foo\nbar".toList = ([.read, .commit], .ok (some "Foo\n".toList)) := by decide

example : tokenize (.relit ['a']) ['b', 'a', 'a', 'c'] =
    [.inl 'b', .inr ['a'], .inr ['a'], .inl 'c'] := by decide

/-! Token-level lemmas. -/

lemma matchLen_nil {re : Re} {L : Nat} (h : matchLenAt re [] = some L) : L = 0 := by
  cases re with
  | relit s =>
    cases s with
    | nil => simp [matchLenAt, List.isPrefixOf] at h; omega
    | cons a s' => simp [matchLenAt, List.isPrefixOf] at h
  | respaced s =>
    cases s with
    | nil => simp [matchLenAt, countSpaces, spacedTry, List.isPrefixOf] at h; omega
    | cons a s' => simp [matchLenAt, countSpaces, spacedTry, List.isPrefixOf] at h

lemma tokenizeF_succ (re : Re) (fuel : Nat) (l : List Char) :
    tokenizeF re (fuel + 1) l =
      match matchLenAt re l with
      | some (L + 1) => .inr (l.take (L + 1)) :: tokenizeF re fuel (l.drop (L + 1))
      | some 0 =>
        match l with
        | [] => [.inr []]
        | c :: rest => .inr [] :: .inl c :: tokenizeF re fuel rest
      | none =>
        match l with
        | [] => []
        | c :: rest => .inl c :: tokenizeF re fuel rest := rfl

@[simp] lemma cntR_nil : cntR [] = 0 := rfl

@[simp] lemma cntR_cons_inl (c : Char) (ts : List (Char ⊕ List Char)) :
    cntR (.inl c :: ts) = cntR ts := by
  simp [cntR, List.countP_cons]

@[simp] lemma cntR_cons_inr (m : List Char) (ts : List (Char ⊕ List Char)) :
    cntR (.inr m :: ts) = cntR ts + 1 := by
  simp [cntR, List.countP_cons]

@[simp] lemma cntR_map_inl (l : List Char) :
    cntR (l.map (.inl : Char → Char ⊕ List Char)) = 0 := by
  induction l with
  | nil => rfl
  | cons c rest ih => simpa using ih

@[simp] lemma budget_zero_cnt (i : Int) : budget i 0 = 0 := by
  unfold budget
  split <;> simp

@[simp] lemma budget_zero (c : Nat) : budget 0 c = 0 := by
  simp [budget]

lemma budget_neg {i : Int} (h : i < 0) (c : Nat) : budget i c = c := by
  simp [budget, h]

lemma budget_pos {i : Int} (h : 0 < i) (c : Nat) :
    budget i (c + 1) = budget (i - 1) c + 1 := by
  unfold budget
  have h1 : ¬ i < 0 := by omega
  have h2 : ¬ i - 1 < 0 := by omega
  rw [if_neg h1, if_neg h2]
  omega

lemma joinTokens_tokenizeF (re : Re) (fuel : Nat) :
    ∀ l : List Char, l.length < fuel → joinTokens (tokenizeF re fuel l) = l := by
  induction fuel with
  | zero => intro l hl; exact absurd hl (Nat.not_lt_zero _)
  | succ fuel ih =>
    intro l hl
    rw [tokenizeF_succ]
    split
    next L hm =>
      have hne : l ≠ [] := by
        intro he
        subst he
        exact Nat.succ_ne_zero L (matchLen_nil hm)
      have hlen : (l.drop (L + 1)).length < fuel := by
        have h1 : 1 ≤ l.length := by
          cases l with
          | nil => exact absurd rfl hne
          | cons a r => simp
        simp only [List.length_drop]
        omega
      simp [joinTokens, ih _ hlen]
    next hm =>
      cases l with
      | nil => simp [joinTokens]
      | cons c rest =>
        have hlen : rest.length < fuel := by
          simp at hl
          omega
        simp [joinTokens, ih _ hlen]
    next hm =>
      cases l with
      | nil => simp [joinTokens]
      | cons c rest =>
        have hlen : rest.length < fuel := by
          simp at hl
          omega
        simp [joinTokens, ih _ hlen]

lemma tokenize_join (re : Re) (l : List Char) : joinTokens (tokenize re l) = l :=
  joinTokens_tokenizeF re (l.length + 1) l (Nat.lt_succ_self _)

lemma tokenizeF_noMatch (re : Re) (fuel : Nat) :
    ∀ l : List Char, l.length < fuel → reMatch re l = false →
      tokenizeF re fuel l = l.map .inl := by
  induction fuel with
  | zero => intro l hl; exact absurd hl (Nat.not_lt_zero _)
  | succ fuel ih =>
    intro l hl hnm
    have hnone : matchLenAt re l = none := by
      cases l with
      | nil =>
        simp [reMatch] at hnm
        exact Option.not_isSome_iff_eq_none.mp (by simp [hnm])
      | cons c rest =>
        simp [reMatch] at hnm
        exact Option.not_isSome_iff_eq_none.mp (by simp [hnm.1])
    rw [tokenizeF_succ, hnone]
    cases l with
    | nil => simp
    | cons c rest =>
      have hrest : reMatch re rest = false := by
        simp [reMatch] at hnm
        exact hnm.2
      have hlen : rest.length < fuel := by
        simp at hl
        omega
      simp [ih rest hlen hrest]

lemma tokenize_noMatch {re : Re} {l : List Char} (h : reMatch re l = false) :
    tokenize re l = l.map .inl :=
  tokenizeF_noMatch re (l.length + 1) l (Nat.lt_succ_self _) h

lemma countM_noMatch {re : Re} {l : List Char} (h : reMatch re l = false) :
    countM re l = 0 := by
  simp [countM, tokenize_noMatch h]

@[simp] lemma joinTokens_map_inl (l : List Char) :
    joinTokens (l.map (.inl : Char → Char ⊕ List Char)) = l := by
  induction l with
  | nil => rfl
  | cons c rest ih => simp [joinTokens, ih]

lemma replTokensK_zero (repl : List Char) (ts : List (Char ⊕ List Char)) :
    replTokensK repl ts 0 = joinTokens ts := by
  induction ts with
  | nil => rfl
  | cons t ts ih =>
    cases t with
    | inl c => simp [replTokensK, joinTokens, ih]
    | inr m => simp [replTokensK, joinTokens, ih]

lemma replTokensK_cnt_zero (repl : List Char) {ts : List (Char ⊕ List Char)}
    (h : cntR ts = 0) (k : Nat) : replTokensK repl ts k = joinTokens ts := by
  induction ts generalizing k with
  | nil => rfl
  | cons t ts ih =>
    cases t with
    | inl c =>
      simp at h
      simp [replTokensK, joinTokens, ih h]
    | inr m => simp at h

lemma replaceFirstK_cnt_zero {re : Re} {l : List Char} (h : countM re l = 0)
    (repl : List Char) (k : Nat) : replaceFirstK re repl k l = l := by
  unfold replaceFirstK
  rw [replTokensK_cnt_zero repl h k, tokenize_join]

lemma reMatch_append_left {re : Re} {l : List Char} (x : List Char)
    (h : reMatch re l = true) : reMatch re (x ++ l) = true := by
  induction x with
  | nil => simpa using h
  | cons c x ih =>
    have hstep : reMatch re (c :: (x ++ l)) =
        ((matchLenAt re (c :: (x ++ l))).isSome || reMatch re (x ++ l)) := rfl
    rw [List.cons_append, hstep, ih, Bool.or_true]

lemma runTokens_repl (repl : List Char) :
    ∀ (ts : List (Char ⊕ List Char)) (i : Int) (b : Bool),
      runTokens (replClosure repl) ts (i, b) =
        (replTokensK repl ts (budget i (cntR ts)),
          (i - budget i (cntR ts), b || decide (0 < cntR ts))) := by
  intro ts
  induction ts with
  | nil => intro i b; simp [runTokens, replTokensK]
  | cons t ts ih =>
    intro i b
    cases t with
    | inl c =>
      simp only [runTokens, ih, cntR_cons_inl]
      simp [replTokensK]
    | inr m =>
      rcases lt_trichotomy i 0 with hneg | hzero | hpos
      · have hi : i ≠ 0 := by omega
        have hcl : replClosure repl (i, b) m = ((i - 1, true), repl) := by
          simp [replClosure, hi]
        simp only [runTokens, hcl, ih, cntR_cons_inr]
        rw [budget_neg hneg, budget_neg (by omega : i - 1 < 0)]
        simp only [replTokensK, Prod.mk.injEq]
        exact ⟨trivial, by push_cast; ring, by simp⟩
      · subst hzero
        have hcl : replClosure repl ((0 : Int), b) m = ((0, true), m) := by
          simp [replClosure]
        simp only [runTokens, hcl, ih, cntR_cons_inr, budget_zero]
        simp [replTokensK, replTokensK_zero]
      · have hi : i ≠ 0 := by omega
        have hcl : replClosure repl (i, b) m = ((i - 1, true), repl) := by
          simp [replClosure, hi]
        simp only [runTokens, hcl, ih, cntR_cons_inr]
        rw [budget_pos hpos]
        simp only [replTokensK, Prod.mk.injEq]
        exact ⟨trivial, by push_cast; ring, by simp⟩

lemma replaceAllFunc_repl (re : Re) (repl : List Char) (i : Int) (b : Bool)
    (l : List Char) :
    replaceAllFunc re (replClosure repl) (i, b) l =
      (replaceFirstK re repl (budget i (countM re l)) l,
        (i - budget i (countM re l), b || decide (0 < countM re l))) :=
  runTokens_repl repl (tokenize re l) i b

lemma replaceAllFunc_noMatch {re : Re} {l : List Char}
    (h : reMatch re l = false) (repl : List Char) (i : Int) (b : Bool) :
    replaceAllFunc re (replClosure repl) (i, b) l = (l, (i, b)) := by
  rw [replaceAllFunc_repl, countM_noMatch h]
  simp [replaceFirstK_cnt_zero (countM_noMatch h)]

/-! Line-splitting lemmas. -/

/-- A raw line text followed by its newline byte. -/
def lineOf (r : List Char) : List Char := r ++ ['\n']

/-- Content made of the given raw lines, each terminated by a
newline. -/
def linesJoin (raw : List (List Char)) : List Char := (raw.map lineOf).flatten

lemma splitLinesAux_append {r : List Char} (hn : '\n' ∉ r) :
    ∀ (rest acc : List Char),
      splitLinesAux (r ++ '\n' :: rest) acc =
        ((acc.reverse ++ r) ++ ['\n']) :: splitLinesAux rest [] := by
  induction r with
  | nil => intro rest acc; simp [splitLinesAux]
  | cons c r ih =>
    intro rest acc
    have hc : ¬ c = '\n' := by
      intro he
      exact hn (by simp [he])
    have hr : '\n' ∉ r := by
      intro he
      exact hn (by simp [he])
    show splitLinesAux (c :: (r ++ '\n' :: rest)) acc = _
    simp only [splitLinesAux, if_neg hc]
    rw [ih hr rest (c :: acc)]
    simp

@[simp] lemma splitLines_nil : splitLines [] = [] := rfl

lemma splitLines_linesJoin {raw : List (List Char)}
    (h : ∀ r ∈ raw, '\n' ∉ r) : splitLines (linesJoin raw) = raw.map lineOf := by
  induction raw with
  | nil => simp [linesJoin]
  | cons r raw ih =>
    have hr : '\n' ∉ r := h r (by simp)
    have hrest : ∀ x ∈ raw, '\n' ∉ x := fun x hx => h x (by simp [hx])
    have hj : linesJoin (r :: raw) = r ++ '\n' :: linesJoin raw := by
      simp [linesJoin, lineOf]
    rw [splitLines, hj, splitLinesAux_append hr]
    have h2 : splitLinesAux (linesJoin raw) [] = List.map lineOf raw := ih hrest
    rw [h2]
    simp [lineOf]

@[simp] lemma flatten_map_lineOf (raw : List (List Char)) :
    (raw.map lineOf).flatten = linesJoin raw := rfl

/-! Lemmas about the `Comment` line transformation. -/

lemma commentLine_pos {res : List Re} {line : List Char}
    (h : ∃ re ∈ res, reMatch re line = true) (char : List Char) :
    commentLine char res line = (char ++ line, true) := by
  induction res with
  | nil => simp at h
  | cons re res ih =>
    by_cases hm : reMatch re line = true
    · simp [commentLine, hm]
    · rcases h with ⟨re', hre', hm'⟩
      rcases List.mem_cons.mp hre' with he | he
      · subst he; exact absurd hm' hm
      · show (if reMatch re line = true then (char ++ line, true)
            else commentLine char res line) = (char ++ line, true)
        rw [if_neg hm]
        exact ih ⟨re', he, hm'⟩

lemma commentLine_neg {res : List Re} {line : List Char}
    (h : ∀ re ∈ res, reMatch re line = false) (char : List Char) :
    commentLine char res line = (line, false) := by
  induction res with
  | nil => rfl
  | cons re res ih =>
    have hm : reMatch re line = false := h re (by simp)
    simp only [commentLine, hm]
    simp only [Bool.false_eq_true, if_false]
    exact ih (fun re' h' => h re' (by simp [h']))

lemma commentLines_eq (char : List Char) (res : List Re) :
    ∀ L : List (List Char),
      commentLines char res L =
        ((L.map (fun ℓ => (commentLine char res ℓ).1)).flatten,
          L.any (fun ℓ => (commentLine char res ℓ).2)) := by
  intro L
  induction L with
  | nil => simp [commentLines]
  | cons ℓ L ih => simp [commentLines, ih]

lemma commentLines_noMatch {res : List Re} {L : List (List Char)}
    (h : ∀ ℓ ∈ L, ∀ re ∈ res, reMatch re ℓ = false) (char : List Char) :
    commentLines char res L = (L.flatten, false) := by
  induction L with
  | nil => simp [commentLines]
  | cons ℓ L ih =>
    have h1 := commentLine_neg (h ℓ (by simp)) char
    have h2 := ih (fun ℓ' hℓ' => h ℓ' (by simp [hℓ']))
    simp [commentLines, h1, h2]

/-! Lemmas about pattern compilation. -/

lemma compile_ok_of_valid {p : Pattern} (h : p ≠ .invalid) :
    compile p = .ok (compileOk p) := by
  cases p with
  | lit s => rfl
  | spacedLit s => rfl
  | invalid => exact absurd rfl h

lemma compileAll_ok_of_valid {ps : List Pattern}
    (h : ∀ p ∈ ps, p ≠ .invalid) :
    compileAll ps = .ok (ps.map compileOk) := by
  induction ps with
  | nil => rfl
  | cons p ps ih =>
    have h1 := compile_ok_of_valid (h p (by simp))
    have h2 := ih (fun p' h' => h p' (by simp [h']))
    simp only [compileAll, h1, h2]
    rfl

lemma compileAll_error_of_invalid {ps : List Pattern}
    (h : ∃ p ∈ ps, p = .invalid) :
    compileAll ps = .error .patternErr := by
  induction ps with
  | nil => simp at h
  | cons p ps ih =>
    by_cases hp : p = .invalid
    · subst hp
      have h1 : compile Pattern.invalid = .error .patternErr := rfl
      simp only [compileAll, h1]
      rfl
    · rcases h with ⟨p', hp', he⟩
      rcases List.mem_cons.mp hp' with h1 | h1
      · subst h1; exact absurd he hp
      · simp only [compileAll, compile_ok_of_valid hp, ih ⟨p', h1, he⟩]
        rfl

lemma compileEntries_ok_of_valid {es : List ReplacerAtLine}
    (h : ∀ e ∈ es, e.Line ≠ .invalid ∧ e.Search ≠ .invalid) :
    compileEntries es =
      .ok (es.map fun e => (compileOk e.Line, compileOk e.Search, e.Replace)) := by
  induction es with
  | nil => rfl
  | cons e es ih =>
    have h1 := compile_ok_of_valid (h e (by simp)).1
    have h2 := compile_ok_of_valid (h e (by simp)).2
    have h3 := ih (fun e' h' => h e' (by simp [h']))
    simp only [compileEntries, h1, h2, h3]
    rfl

lemma compileEntries_error_of_invalid {es : List ReplacerAtLine}
    (h : ∃ e ∈ es, e.Line = .invalid ∨ e.Search = .invalid) :
    compileEntries es = .error .patternErr := by
  induction es with
  | nil => simp at h
  | cons e es ih =>
    by_cases hL : e.Line = .invalid
    · have h1 : compile e.Line = .error .patternErr := by rw [hL]; rfl
      simp only [compileEntries, h1]
      rfl
    · by_cases hS : e.Search = .invalid
      · have h1 : compile e.Search = .error .patternErr := by rw [hS]; rfl
        simp only [compileEntries, compile_ok_of_valid hL, h1]
        rfl
      · rcases h with ⟨e', he', hc⟩
        rcases List.mem_cons.mp he' with h1 | h1
        · subst h1
          rcases hc with hc | hc
          · exact absurd hc hL
          · exact absurd hc hS
        · simp only [compileEntries, compile_ok_of_valid hL, compile_ok_of_valid hS,
            ih ⟨e', h1, hc⟩]
          rfl

/-! Lemmas about the line-scoped replacement loops. -/

/-- Specification of the content produced by one pass of
`genReplaceAtLine`'s per-line entry loop. -/
def ralLineOut (n : Int) (ces : List CEntry) (line : List Char) : List Char :=
  ces.foldl
    (fun l ce =>
      if reMatch ce.1 l then
        replaceFirstK ce.2.1 ce.2.2 (budget n (countM ce.2.1 l)) l
      else l)
    line

lemma ralLine_parts (n : Int) :
    ∀ (ces : List CEntry) (line : List Char) (b : Bool),
      ∃ fl, ralLine n ces line b = (ralLineOut n ces line, b || fl) ∧
        (fl = false → ralLineOut n ces line = line) := by
  intro ces
  induction ces with
  | nil =>
    intro line b
    exact ⟨false, by simp [ralLine, ralLineOut], fun _ => rfl⟩
  | cons ce ces ih =>
    intro line b
    by_cases hm : reMatch ce.1 line = true
    · have hout : ralLineOut n (ce :: ces) line =
          ralLineOut n ces (replaceFirstK ce.2.1 ce.2.2
            (budget n (countM ce.2.1 line)) line) := by
        simp [ralLineOut, hm]
      rcases ih (replaceFirstK ce.2.1 ce.2.2 (budget n (countM ce.2.1 line)) line)
          (b || decide (0 < countM ce.2.1 line)) with ⟨fl₁, hrec, hfl₁⟩
      refine ⟨decide (0 < countM ce.2.1 line) || fl₁, ?_, ?_⟩
      · simp only [ralLine, hm, if_true, replaceAllFunc_repl]
        rw [hrec, hout]
        simp [Bool.or_assoc]
      · intro hfl
        have hd : decide (0 < countM ce.2.1 line) = false := by
          cases hde : decide (0 < countM ce.2.1 line) <;> simp [hde] at hfl ⊢
        have hcnt : countM ce.2.1 line = 0 := by
          simpa using hd
        have hfix : replaceFirstK ce.2.1 ce.2.2
            (budget n (countM ce.2.1 line)) line = line :=
          replaceFirstK_cnt_zero hcnt _ _
        have hfl1 : fl₁ = false := by
          cases hfe : fl₁
          · rfl
          · rw [hfe] at hfl; simp at hfl
        have h5 := hfl₁ hfl1
        rw [hfix] at h5
        rw [hout, hfix]
        exact h5
    · have hm' : reMatch ce.1 line = false := by simpa using hm
      have hout : ralLineOut n (ce :: ces) line = ralLineOut n ces line := by
        simp [ralLineOut, hm']
      rcases ih line b with ⟨fl, hrec, hfl⟩
      refine ⟨fl, ?_, ?_⟩
      · simp only [ralLine, hm', Bool.false_eq_true, if_false]
        rw [hrec, hout]
      · intro h0
        rw [hout]
        exact hfl h0

lemma ralLine_noMatch {n : Int} {ces : List CEntry} {line : List Char}
    (h : ∀ ce ∈ ces, reMatch ce.1 line = false ∨ reMatch ce.2.1 line = false) :
    ∀ b, ralLine n ces line b = (line, b) := by
  induction ces with
  | nil => intro b; rfl
  | cons ce ces ih =>
    intro b
    rcases h ce (by simp) with hL | hS
    · simp only [ralLine, hL, Bool.false_eq_true, if_false]
      exact ih (fun ce' h' => h ce' (by simp [h'])) b
    · by_cases hm : reMatch ce.1 line = true
      · simp only [ralLine, hm, if_true, replaceAllFunc_noMatch hS]
        exact ih (fun ce' h' => h ce' (by simp [h'])) b
      · simp only [ralLine, if_neg hm]
        exact ih (fun ce' h' => h ce' (by simp [h'])) b

lemma ralLines_parts (n : Int) (ces : List CEntry) :
    ∀ (L : List (List Char)) (b : Bool),
      ∃ fl, ralLines n ces L b = ((L.map (ralLineOut n ces)).flatten, b || fl) ∧
        (fl = false → ∀ ℓ ∈ L, ralLineOut n ces ℓ = ℓ) := by
  intro L
  induction L with
  | nil =>
    intro b
    exact ⟨false, by simp [ralLines], fun _ ℓ h => absurd h (List.not_mem_nil ℓ)⟩
  | cons ℓ L ih =>
    intro b
    rcases ralLine_parts n ces ℓ b with ⟨fl₀, h₀, hc₀⟩
    rcases ih (b || fl₀) with ⟨fl₁, h₁, hc₁⟩
    refine ⟨fl₀ || fl₁, ?_, ?_⟩
    · simp only [ralLines, h₀, h₁]
      simp [Bool.or_assoc]
    · intro hfl
      have he₀ : fl₀ = false := by
        cases hfe : fl₀
        · rfl
        · rw [hfe] at hfl; simp at hfl
      have he₁ : fl₁ = false := by
        cases hfe : fl₁
        · rfl
        · rw [hfe] at hfl; simp at hfl
      intro ℓ' hℓ'
      rcases List.mem_cons.mp hℓ' with h | h
      · subst h; exact hc₀ he₀
      · exact hc₁ he₁ ℓ' h

lemma ralLines_noMatch {n : Int} {ces : List CEntry} {L : List (List Char)}
    (h : ∀ ℓ ∈ L, ∀ ce ∈ ces, reMatch ce.1 ℓ = false ∨ reMatch ce.2.1 ℓ = false) :
    ∀ b, ralLines n ces L b = (L.flatten, b) := by
  induction L with
  | nil => intro b; simp [ralLines]
  | cons ℓ L ih =>
    intro b
    have h1 := @ralLine_noMatch n ces ℓ (h ℓ (by simp)) b
    have h2 := ih (fun ℓ' h' => h ℓ' (by simp [h'])) b
    simp [ralLines, h1, h2]

/-! Lemmas characterising `commentLine` without case hypotheses. -/

lemma commentLine_flag (char : List Char) (res : List Re) (ℓ : List Char) :
    (commentLine char res ℓ).2 = res.any (fun re => reMatch re ℓ) := by
  induction res with
  | nil => rfl
  | cons re res ih =>
    by_cases hm : reMatch re ℓ = true
    · simp [commentLine, hm]
    · have hm' : reMatch re ℓ = false := by simpa using hm
      simp [commentLine, hm', ih]

lemma commentLine_out (char : List Char) (res : List Re) (ℓ : List Char) :
    (commentLine char res ℓ).1 =
      (if res.any (fun re => reMatch re ℓ) = true then char ++ ℓ else ℓ) := by
  induction res with
  | nil => rfl
  | cons re res ih =>
    by_cases hm : reMatch re ℓ = true
    · simp [commentLine, hm]
    · have hm' : reMatch re ℓ = false := by simpa using hm
      simp [commentLine, hm', ih]

lemma patMatches_valid {p : Pattern} (h : p ≠ .invalid) (l : List Char) :
    patMatches p l = reMatch (compileOk p) l := by
  cases p with
  | lit s => rfl
  | spacedLit s => rfl
  | invalid => exact absurd rfl h

/-! Lemmas about the interaction of the comment marker with the
whitespace-wrapped marker pattern used by `CommentOut`. -/

@[simp] lemma replTokensK_map_inl (repl : List Char) (l : List Char) (k : Nat) :
    replTokensK repl (l.map (.inl : Char → Char ⊕ List Char)) k = l := by
  induction l with
  | nil => rfl
  | cons c rest ih => simp [replTokensK, ih]

lemma countSpaces_of_head {l : List Char}
    (h : ∀ c, l.head? = some c → isSpaceCh c = false) : countSpaces l = 0 := by
  cases l with
  | nil => rfl
  | cons c rest =>
    have hc : isSpaceCh c = false := h c rfl
    simp [countSpaces, hc]

lemma isPrefixOf_append_self (m r : List Char) : m.isPrefixOf (m ++ r) = true :=
  List.isPrefixOf_iff_prefix.mpr ⟨r, rfl⟩

lemma matchLenAt_commented {m ℓ : List Char} (hm : m ≠ [])
    (hmsp : ∀ c ∈ m, isSpaceCh c = false)
    (hℓ : ∀ c, ℓ.head? = some c → isSpaceCh c = false) :
    matchLenAt (.respaced m) (m ++ ' ' :: ℓ) = some (m.length + 1) := by
  have hcs : countSpaces (m ++ ' ' :: ℓ) = 0 := by
    cases m with
    | nil => exact absurd rfl hm
    | cons c m' =>
      have hc : isSpaceCh c = false := hmsp c (by simp)
      simp [countSpaces, hc]
  have hdrop : (m ++ ' ' :: ℓ).drop m.length = ' ' :: ℓ := by
    simp
  have hcsℓ : countSpaces ℓ = 0 := countSpaces_of_head hℓ
  have hsp : isSpaceCh ' ' = true := by decide
  show spacedTry m (m ++ ' ' :: ℓ) (countSpaces (m ++ ' ' :: ℓ)) = _
  rw [hcs]
  show (if m.isPrefixOf (m ++ ' ' :: ℓ) then
      some (m.length + countSpaces ((m ++ ' ' :: ℓ).drop m.length)) else none) = _
  rw [if_pos (isPrefixOf_append_self m (' ' :: ℓ)), hdrop]
  simp [countSpaces, hsp, hcsℓ]

lemma tokenizeF_head_match {re : Re} {l : List Char} {L : Nat} (fuel : Nat)
    (h : matchLenAt re l = some (L + 1)) :
    tokenizeF re (fuel + 1) l =
      .inr (l.take (L + 1)) :: tokenizeF re fuel (l.drop (L + 1)) := by
  rw [tokenizeF_succ, h]

lemma tokenize_commented {m ℓ : List Char} (hm : m ≠ [])
    (hmsp : ∀ c ∈ m, isSpaceCh c = false)
    (hℓ : ∀ c, ℓ.head? = some c → isSpaceCh c = false)
    (hno : reMatch (.respaced m) ℓ = false) :
    tokenize (.respaced m) (m ++ ' ' :: ℓ) =
      .inr (m ++ [' ']) :: ℓ.map .inl := by
  have hmatch := matchLenAt_commented hm hmsp hℓ
  have hlen : (m ++ ' ' :: ℓ).length = m.length + 1 + ℓ.length := by
    simp
    omega
  have htake : (m ++ ' ' :: ℓ).take (m.length + 1) = m ++ [' '] := by
    have h1 : m ++ ' ' :: ℓ = (m ++ [' ']) ++ ℓ := by simp
    have h2 : m.length + 1 = (m ++ [' ']).length := by simp
    rw [h1, h2, List.take_left]
  have hdrop : (m ++ ' ' :: ℓ).drop (m.length + 1) = ℓ := by
    have h1 : m ++ ' ' :: ℓ = (m ++ [' ']) ++ ℓ := by simp
    have h2 : m.length + 1 = (m ++ [' ']).length := by simp
    rw [h1, h2, List.drop_left]
  show tokenizeF (.respaced m) ((m ++ ' ' :: ℓ).length + 1) (m ++ ' ' :: ℓ) = _
  rw [hlen]
  rw [tokenizeF_head_match (m.length + 1 + ℓ.length) hmatch, htake, hdrop]
  rw [tokenizeF_noMatch (.respaced m) (m.length + 1 + ℓ.length) ℓ (by omega) hno]

lemma replaceAllFunc_commented {m ℓ : List Char} (hm : m ≠ [])
    (hmsp : ∀ c ∈ m, isSpaceCh c = false)
    (hℓ : ∀ c, ℓ.head? = some c → isSpaceCh c = false)
    (hno : reMatch (.respaced m) ℓ = false) (b : Bool) :
    replaceAllFunc (.respaced m) (replClosure []) (1, b) (m ++ ' ' :: ℓ) =
      (ℓ, (0, true)) := by
  unfold replaceAllFunc
  rw [tokenize_commented hm hmsp hℓ hno, runTokens_repl]
  have hcnt : cntR ((.inr (m ++ [' ']) : Char ⊕ List Char) :: ℓ.map .inl) = 1 := by
    simp
  rw [hcnt]
  have hb : budget 1 1 = 1 := by decide
  rw [hb]
  simp [replTokensK]

lemma ralLine_restore {m ℓ : List Char} (hm : m ≠ [])
    (hmsp : ∀ c ∈ m, isSpaceCh c = false)
    (hℓ : ∀ c, ℓ.head? = some c → isSpaceCh c = false)
    (hno : reMatch (.respaced m) ℓ = false) :
    ∀ (res : List Re) (b : Bool),
      (∃ re ∈ res, reMatch re (m ++ ' ' :: ℓ) = true) →
      ralLine 1 (res.map fun re => (re, Re.respaced m, ([] : List Char)))
        (m ++ ' ' :: ℓ) b = (ℓ, true) := by
  intro res
  induction res with
  | nil => intro b hex; simp at hex
  | cons re res ih =>
    intro b hex
    by_cases hm1 : reMatch re (m ++ ' ' :: ℓ) = true
    · show (if reMatch re (m ++ ' ' :: ℓ) = true then _ else _) = _
      rw [if_pos hm1]
      rw [replaceAllFunc_commented hm hmsp hℓ hno b]
      exact @ralLine_noMatch 1 (res.map fun re => (re, Re.respaced m, ([] : List Char)))
        ℓ (by
          intro ce hce
          rcases List.mem_map.mp hce with ⟨re', _, hre'⟩
          subst hre'
          exact Or.inr hno) true
    · show (if reMatch re (m ++ ' ' :: ℓ) = true then _ else _) = _
      rw [if_neg hm1]
      rcases hex with ⟨re', hre', hmm⟩
      rcases List.mem_cons.mp hre' with he | he
      · subst he; exact absurd hmm hm1
      · exact ih b ⟨re', he, hmm⟩

/-- Whether some compiled pattern of `res` matches the line made of raw
text `r`. -/
def markMatched (res : List Re) (r : List Char) : Bool :=
  res.any (fun re => reMatch re (lineOf r))

/-- Raw text of a line after the `Comment` pass. -/
def commentedRaw (m : List Char) (res : List Re) (r : List Char) : List Char :=
  if markMatched res r then m ++ ' ' :: r else r

lemma listMapCongr {α β : Type} {f g : α → β} :
    ∀ l : List α, (∀ a ∈ l, f a = g a) → l.map f = l.map g := by
  intro l
  induction l with
  | nil => intro _; rfl
  | cons a l ih =>
    intro h
    simp only [List.map_cons]
    rw [h a (by simp), ih (fun a' h' => h a' (by simp [h']))]

@[simp] lemma linesJoin_nil : linesJoin [] = [] := rfl

@[simp] lemma linesJoin_cons (r : List Char) (raw : List (List Char)) :
    linesJoin (r :: raw) = lineOf r ++ linesJoin raw := by
  show ((r :: raw).map lineOf).flatten = _
  rw [List.map_cons, List.flatten_cons]
  rfl

lemma lineOf_commentedRaw {m : List Char} (res : List Re) (r : List Char) :
    lineOf (commentedRaw m res r) =
      (if markMatched res r then (m ++ [' ']) ++ lineOf r else lineOf r) := by
  unfold commentedRaw
  by_cases hmm : markMatched res r = true
  · rw [if_pos hmm, if_pos hmm]
    simp [lineOf]
  · rw [if_neg hmm, if_neg hmm]

lemma ralLine_after_comment {m : List Char} {res : List Re} (hm : m ≠ [])
    (hmsp : ∀ c ∈ m, isSpaceCh c = false) (r : List Char)
    (hamb : markMatched res r = true →
      (∀ c, (lineOf r).head? = some c → isSpaceCh c = false) ∧
        reMatch (.respaced m) (lineOf r) = false) (b : Bool) :
    ralLine 1 (res.map fun re => (re, Re.respaced m, ([] : List Char)))
      (lineOf (commentedRaw m res r)) b = (lineOf r, b || markMatched res r) := by
  rw [lineOf_commentedRaw]
  by_cases hmm : markMatched res r = true
  · rcases hamb hmm with ⟨hhd, hno⟩
    rw [if_pos hmm, hmm, Bool.or_true]
    have hsh : (m ++ [' ']) ++ lineOf r = m ++ ' ' :: lineOf r := by simp
    rw [hsh]
    rcases List.any_eq_true.mp hmm with ⟨re, hre, hmre⟩
    have hex : ∃ re ∈ res, reMatch re (m ++ ' ' :: lineOf r) = true := by
      refine ⟨re, hre, ?_⟩
      have := reMatch_append_left (m ++ [' ']) hmre
      simpa using this
    exact ralLine_restore hm hmsp hhd hno res b hex
  · have hmm' : markMatched res r = false := by simpa using hmm
    rw [if_neg hmm, hmm', Bool.or_false]
    refine @ralLine_noMatch 1 (res.map fun re => (re, Re.respaced m, ([] : List Char)))
      (lineOf r) ?_ b
    intro ce hce
    rcases List.mem_map.mp hce with ⟨re', hre', hdef⟩
    subst hdef
    left
    have := List.any_eq_false.mp hmm' re' hre'
    simpa using this

lemma ralLines_after_comment {m : List Char} {res : List Re} (hm : m ≠ [])
    (hmsp : ∀ c ∈ m, isSpaceCh c = false) :
    ∀ (rawL : List (List Char)) (b : Bool),
      (∀ r ∈ rawL, markMatched res r = true →
        (∀ c, (lineOf r).head? = some c → isSpaceCh c = false) ∧
          reMatch (.respaced m) (lineOf r) = false) →
      ralLines 1 (res.map fun re => (re, Re.respaced m, ([] : List Char)))
        (rawL.map (fun r => lineOf (commentedRaw m res r))) b =
        (linesJoin rawL, b || rawL.any (markMatched res)) := by
  intro rawL
  induction rawL with
  | nil => intro b _; simp [ralLines]
  | cons r rawL ih =>
    intro b h
    have h1 := ralLine_after_comment hm hmsp r (h r (by simp)) b
    have h2 := ih (b || markMatched res r) (fun r' h' => h r' (by simp [h']))
    simp only [List.map_cons, ralLines, h1, h2]
    simp [Bool.or_assoc]

/-! Lemmas about the whole-content replacement loop. -/

/-- Specification of the content produced by `genReplace`'s entry loop:
each entry, in order, replaces its budgeted number of matches in the
current content. -/
def goOut (n : Int) (rs : List Replacer) (C : List Char) : List Char :=
  rs.foldl
    (fun c r =>
      replaceFirstK (compileOk r.Search) r.Replace
        (budget n (countM (compileOk r.Search) c)) c)
    C

lemma goEntries_parts {rs : List Replacer} (n : Int)
    (hv : ∀ r ∈ rs, r.Search ≠ .invalid) :
    ∀ (C : List Char) (b : Bool),
      ∃ fl, goEntries rs n C b = .ok (goOut n rs C, b || fl) ∧
        (fl = false → goOut n rs C = C) := by
  induction rs with
  | nil =>
    intro C b
    exact ⟨false, by simp [goEntries, goOut], fun _ => rfl⟩
  | cons r rs ih =>
    intro C b
    have h1 := compile_ok_of_valid (hv r (by simp))
    rcases ih (fun r' h' => hv r' (by simp [h']))
        (replaceFirstK (compileOk r.Search) r.Replace
          (budget n (countM (compileOk r.Search) C)) C)
        (b || decide (0 < countM (compileOk r.Search) C)) with ⟨fl₁, hrec, hc₁⟩
    refine ⟨decide (0 < countM (compileOk r.Search) C) || fl₁, ?_, ?_⟩
    · simp only [goEntries, h1, replaceAllFunc_repl]
      rw [hrec]
      simp only [goOut, List.foldl_cons]
      simp [Bool.or_assoc]
    · intro hfl
      have hd : decide (0 < countM (compileOk r.Search) C) = false := by
        cases hde : decide (0 < countM (compileOk r.Search) C) <;>
          simp [hde] at hfl ⊢
      have hcnt : countM (compileOk r.Search) C = 0 := by simpa using hd
      have hfix : replaceFirstK (compileOk r.Search) r.Replace
          (budget n (countM (compileOk r.Search) C)) C = C :=
        replaceFirstK_cnt_zero hcnt _ _
      have hfl1 : fl₁ = false := by
        cases hfe : fl₁
        · rfl
        · rw [hfe] at hfl; simp at hfl
      have := hc₁ hfl1
      simp only [goOut, List.foldl_cons] at *
      rw [hfix] at this ⊢
      exact this

lemma goEntries_error {rs : List Replacer} (n : Int)
    (h : ∃ r ∈ rs, r.Search = .invalid) :
    ∀ (C : List Char) (b : Bool), goEntries rs n C b = .error .patternErr := by
  induction rs with
  | nil => simp at h
  | cons r rs ih =>
    intro C b
    by_cases hr : r.Search = .invalid
    · simp [goEntries, hr, compile]
    · rcases h with ⟨r', hr', he⟩
      rcases List.mem_cons.mp hr' with h1 | h1
      · subst h1; exact absurd he hr
      · simp [goEntries, compile_ok_of_valid hr, ih ⟨r', h1, he⟩]

lemma goEntries_noMatch {rs : List Replacer} (n : Int)
    (hv : ∀ r ∈ rs, r.Search ≠ .invalid)
    {C : List Char} (h : ∀ r ∈ rs, reMatch (compileOk r.Search) C = false) :
    ∀ b, goEntries rs n C b = .ok (C, b) := by
  induction rs with
  | nil => intro b; rfl
  | cons r rs ih =>
    intro b
    have h1 := compile_ok_of_valid (hv r (by simp))
    have h2 := replaceAllFunc_noMatch (h r (by simp)) r.Replace n b
    simp only [goEntries, h1, h2]
    exact ih (fun r' h' => hv r' (by simp [h'])) (fun r' h' => h r' (by simp [h'])) b

example : countM (.relit ['a', 'a']) ['a', 'a', 'a'] = 1 := by decide

example : matchLenAt (.respaced ['#']) ['#', ' ', 'x'] = some 2 := by decide

example : reMatch (.relit ['a']) "bca".toList = true := by decide

example : (replaceAllFunc (.relit ['a']) (replClosure ['X']) ((1 : Int), false)
    "aaa".toList).1 = "Xaa".toList := by decide

lemma listAnyCongr {α : Type} {p q : α → Bool} :
    ∀ l : List α, (∀ a ∈ l, p a = q a) → l.any p = l.any q := by
  intro l
  induction l with
  | nil => intro _; rfl
  | cons a l ih =>
    intro h
    simp only [List.any_cons]
    rw [h a (by simp), ih (fun a' h' => h a' (by simp [h']))]

/-! No-op helper lemmas: when nothing matches, nothing is committed. -/

lemma genReplace_noMatch_noCommit {rs : List Replacer} {n : Int} {C : List Char}
    (h : ∀ r ∈ rs, patMatches r.Search C = false) :
    Ev.commit ∉ (Editer.genReplace rs n C).1 ∧
      fileAfter C (Editer.genReplace rs n C).2 = C := by
  by_cases hn : n = 0
  · subst hn
    unfold Editer.genReplace
    rw [if_pos rfl]
    exact ⟨by simp, rfl⟩
  · by_cases hval : ∀ r ∈ rs, r.Search ≠ Pattern.invalid
    · have hnm : ∀ r ∈ rs, reMatch (compileOk r.Search) C = false := by
        intro r hr
        have h2 := h r hr
        rwa [patMatches_valid (hval r hr)] at h2
      have h1 := genReplace_unfold hn (goEntries_noMatch n hval hnm false)
      rw [h1]
      simp
    · push_neg at hval
      obtain ⟨r, hr, hrr⟩ := hval
      have h1 := genReplace_unfold_err hn (goEntries_error n ⟨r, hr, hrr⟩ C false)
      rw [h1]
      simp

lemma genReplaceAtLine_noMatch_noCommit {es : List ReplacerAtLine} {n : Int}
    {C : List Char}
    (h : ∀ e ∈ es, ∀ ℓ ∈ splitLines C,
      patMatches e.Line ℓ = false ∨ patMatches e.Search ℓ = false) :
    Ev.commit ∉ (Editer.genReplaceAtLine es n C).1 ∧
      fileAfter C (Editer.genReplaceAtLine es n C).2 = C := by
  by_cases hn : n = 0
  · subst hn
    unfold Editer.genReplaceAtLine
    rw [if_pos rfl]
    exact ⟨by simp, rfl⟩
  · by_cases hval : ∀ e ∈ es, e.Line ≠ Pattern.invalid ∧ e.Search ≠ Pattern.invalid
    · have hces : ∀ ℓ ∈ splitLines C,
          ∀ ce ∈ es.map (fun e => (compileOk e.Line, compileOk e.Search, e.Replace)),
          reMatch ce.1 ℓ = false ∨ reMatch ce.2.1 ℓ = false := by
        intro ℓ hℓ ce hce
        rcases List.mem_map.mp hce with ⟨e, he, hdef⟩
        subst hdef
        rcases h e he ℓ hℓ with h2 | h2
        · left
          rwa [patMatches_valid (hval e he).1] at h2
        · right
          rwa [patMatches_valid (hval e he).2] at h2
      have h1 := @genReplaceAtLine_unfold es n C hn _ (compileEntries_ok_of_valid hval)
      rw [h1, @ralLines_noMatch n _ (splitLines C) hces false]
      simp
    · push_neg at hval
      obtain ⟨e, he, hrr⟩ := hval
      have hinv : e.Line = Pattern.invalid ∨ e.Search = Pattern.invalid := by
        by_cases hL : e.Line = Pattern.invalid
        · exact Or.inl hL
        · exact Or.inr (hrr hL)
      have h1 := @genReplaceAtLine_unfold_err es n C hn _
        (compileEntries_error_of_invalid ⟨e, he, hinv⟩)
      rw [h1]
      simp

lemma Comment_noMatch_noCommit {conf : Option ConfEditer} {ps : List Pattern}
    {C : List Char}
    (h : ∀ p ∈ ps, ∀ ℓ ∈ splitLines C, patMatches p ℓ = false) :
    Ev.commit ∉ (Editer.Comment conf ps C).1 ∧
      fileAfter C (Editer.Comment conf ps C).2 = C := by
  cases conf with
  | none => exact ⟨by simp [Editer.Comment], rfl⟩
  | some cf =>
    obtain ⟨m, mode⟩ := cf
    by_cases hm : m = []
    · subst hm
      exact ⟨by simp [Editer.Comment], rfl⟩
    · by_cases hval : ∀ p ∈ ps, p ≠ Pattern.invalid
      · have hres : ∀ ℓ ∈ splitLines C, ∀ re ∈ ps.map compileOk,
            reMatch re ℓ = false := by
          intro ℓ hℓ re hre
          rcases List.mem_map.mp hre with ⟨p, hp, hdef⟩
          subst hdef
          have h2 := h p hp ℓ hℓ
          rwa [patMatches_valid (hval p hp)] at h2
        have h1 := @Comment_unfold m mode ps C hm _ (compileAll_ok_of_valid hval)
        rw [h1, commentLines_noMatch hres (m ++ [' '])]
        simp
      · push_neg at hval
        obtain ⟨p, hp, hpe⟩ := hval
        have h1 := @Comment_unfold_err m mode ps C hm _
          (compileAll_error_of_invalid ⟨p, hp, hpe⟩)
        rw [h1]
        simp

lemma CommentOut_noMatch_noCommit {conf : Option ConfEditer} {ps : List Pattern}
    {C : List Char}
    (h : ∀ p ∈ ps, ∀ ℓ ∈ splitLines C, patMatches p ℓ = false) :
    Ev.commit ∉ (Editer.CommentOut conf ps C).1 ∧
      fileAfter C (Editer.CommentOut conf ps C).2 = C := by
  cases conf with
  | none => exact ⟨by simp [Editer.CommentOut], rfl⟩
  | some cf =>
    obtain ⟨m, mode⟩ := cf
    by_cases hm : m = []
    · subst hm
      exact ⟨by simp [Editer.CommentOut], rfl⟩
    · rw [CommentOut_unfold hm]
      refine genReplaceAtLine_noMatch_noCommit ?_
      intro e he ℓ hℓ
      rcases List.mem_map.mp he with ⟨p, hp, hdef⟩
      subst hdef
      exact Or.inl (h p hp ℓ hℓ)

/-! Claim theorems. -/

/-- Claim C1 (code bug witnessed): `Delete` does not commit
`C[0:b] ++ C[e:len(C)]`.  Because the second read buffer is allocated
with length `size - (end - begin)` instead of `size - end`
(edit.go:101), `Delete(1, 2)` on `"abcd"` commits `"acd"` followed by a
spurious zero byte, `Delete(1, 1)` on `"ab"` commits `"ab"` plus a zero
byte instead of leaving the content equal, and `Delete(1, 4)` on
`"abcd"` fails with `io.EOF` instead of committing `"a"`. -/
theorem fv_C1_bug :
    Editer.Delete "abcd".toList 1 2 =
        ([Ev.read, Ev.commit], .ok (some ['a', 'c', 'd', zeroCh])) ∧
      ['a', 'c', 'd', zeroCh] ≠ "acd".toList ∧
      Editer.Delete "ab".toList 1 1 =
        ([Ev.read, Ev.commit], .ok (some ['a', 'b', zeroCh])) ∧
      ['a', 'b', zeroCh] ≠ "ab".toList ∧
      Editer.Delete "abcd".toList 1 4 = ([Ev.read], .error .ioErr) :=
  ⟨by decide, by decide, by decide, by decide, by decide⟩

/-- Claim C2 (code bug witnessed): the line loops break on `io.EOF`
before processing the data returned with it (edit.go:313-317), so a
final line lacking a trailing newline is dropped, not processed: on
`"foo\nbar"`, replacing `f` by `F` on lines matching `foo` commits
`"Foo\n"` — the final line `"bar"` does not appear in the reassembled
output. -/
theorem fv_C2_bug :
    Editer.ReplaceAtLine [⟨.lit "foo".toList, .lit ['f'], ['F']⟩]
        "foo\nbar".toList = ([Ev.read, Ev.commit], .ok (some "Foo\n".toList)) ∧
      "Foo\n".toList ≠ "Foo\nbar".toList :=
  ⟨by decide, by decide⟩

/-- Claim C3, counterexample to the claim as stated: for `Replace` the
whole content is read (the `read` event is in the trace) even though the
single pattern fails to compile — the compile failure does not happen
before the content is read. -/
theorem fv_C3_cex :
    Ev.read ∈ (Editer.Replace [⟨.invalid, []⟩] ['a']).1 ∧
      (Editer.Replace [⟨.invalid, []⟩] ['a']).2 = .error .patternErr :=
  ⟨by decide, by decide⟩

/-- Claim C3 (amended): for `ReplaceAtLine`/`ReplaceAtLineN`, `Comment`
and `CommentOut`, a pattern that fails to compile aborts the operation
with the pattern error before any content is read (empty event trace);
for `Replace`/`ReplaceN` the content is read once before patterns are
compiled, but a compile failure still aborts before any commit, leaving
the file unchanged.  (`n = 0` calls short-circuit instead and were
already successful no-ops.) -/
theorem fv_C3 :
    (∀ (es : List ReplacerAtLine) (n : Int) (C : List Char), n ≠ 0 →
        (∃ e ∈ es, e.Line = Pattern.invalid ∨ e.Search = Pattern.invalid) →
        Editer.ReplaceAtLineN es n C = ([], .error .patternErr)) ∧
      (∀ (m : List Char) (mode : Nat) (ps : List Pattern) (C : List Char),
        m ≠ [] → (∃ p ∈ ps, p = Pattern.invalid) →
        Editer.Comment (some ⟨m, mode⟩) ps C = ([], .error .patternErr)) ∧
      (∀ (m : List Char) (mode : Nat) (ps : List Pattern) (C : List Char),
        m ≠ [] → (∃ p ∈ ps, p = Pattern.invalid) →
        Editer.CommentOut (some ⟨m, mode⟩) ps C = ([], .error .patternErr)) ∧
      (∀ (rs : List Replacer) (n : Int) (C : List Char), n ≠ 0 →
        (∃ r ∈ rs, r.Search = Pattern.invalid) →
        Editer.ReplaceN rs n C = ([.read], .error .patternErr) ∧
          fileAfter C (Editer.ReplaceN rs n C).2 = C) := by
  refine ⟨?_, ?_, ?_, ?_⟩
  · intro es n C hn hex
    exact genReplaceAtLine_unfold_err hn (compileEntries_error_of_invalid hex)
  · intro m mode ps C hm hex
    exact Comment_unfold_err hm (compileAll_error_of_invalid hex)
  · intro m mode ps C hm hex
    rw [CommentOut_unfold hm]
    refine genReplaceAtLine_unfold_err (by decide) (compileEntries_error_of_invalid ?_)
    obtain ⟨p, hp, hpe⟩ := hex
    subst hpe
    exact ⟨⟨Pattern.invalid, .spacedLit m, []⟩, List.mem_map_of_mem _ hp, Or.inl rfl⟩
  · intro rs n C hn hex
    have h1 := genReplace_unfold_err hn (goEntries_error n hex C false)
    refine ⟨h1, ?_⟩
    show fileAfter C (Editer.genReplace rs n C).2 = C
    rw [h1]
    rfl

/-- Witness for C3: a concrete `ReplaceAtLineN` call with an invalid
line pattern fails with the pattern error and an empty trace. -/
theorem fv_C3_w :
    Editer.ReplaceAtLineN [⟨Pattern.invalid, Pattern.lit ['a'], []⟩] (-1) ['x'] =
      ([], .error .patternErr) :=
  fv_C3.1 [⟨Pattern.invalid, Pattern.lit ['a'], []⟩] (-1) ['x'] (by decide)
    ⟨⟨Pattern.invalid, Pattern.lit ['a'], []⟩, by decide, Or.inl rfl⟩

/-- Claim C7: `ReplaceN` and `ReplaceAtLineN` with limit `n = 0` return
success immediately: empty event trace (no read, no write, no truncate)
and no commit. -/
theorem fv_C7 (rs : List Replacer) (es : List ReplacerAtLine) (C : List Char) :
    Editer.ReplaceN rs 0 C = ([], .ok none) ∧
      Editer.ReplaceAtLineN es 0 C = ([], .ok none) := by
  constructor
  · show Editer.genReplace rs 0 C = _
    unfold Editer.genReplace
    rw [if_pos rfl]
  · show Editer.genReplaceAtLine es 0 C = _
    unfold Editer.genReplaceAtLine
    rw [if_pos rfl]

/-- Claim C9: `Comment` and `CommentOut` with an absent configuration
or an empty comment marker fail with the configuration error
(`errComment`) with an empty event trace — the file is neither read nor
modified. -/
theorem fv_C9 (ps : List Pattern) (C : List Char) (mode : Nat) :
    Editer.Comment none ps C = ([], .error .configErr) ∧
      Editer.Comment (some ⟨[], mode⟩) ps C = ([], .error .configErr) ∧
      Editer.CommentOut none ps C = ([], .error .configErr) ∧
      Editer.CommentOut (some ⟨[], mode⟩) ps C = ([], .error .configErr) :=
  ⟨rfl, rfl, rfl, rfl⟩

/-- Claim C10: `Comment` prefixes `marker + " "` to every line matched
by some pattern unconditionally — also to a line that already starts
with the marker — so a second `Comment` call whose pattern still
matches the commented line prefixes it again: commenting `"a\n"` with
marker `#` gives `"# a\n"`, and commenting that result again gives
`"# # a\n"`, not `"# a\n"` (Comment is not idempotent). -/
theorem fv_C10 :
    (∀ (char : List Char) (res : List Re) (line : List Char),
        (∃ re ∈ res, reMatch re line = true) →
        commentLine char res line = (char ++ line, true)) ∧
      fileAfter "a\n".toList
          (Editer.Comment (some ⟨['#'], 0⟩) [.lit ['a']] "a\n".toList).2 =
        "# a\n".toList ∧
      fileAfter "# a\n".toList
          (Editer.Comment (some ⟨['#'], 0⟩) [.lit ['a']] "# a\n".toList).2 =
        "# # a\n".toList ∧
      "# # a\n".toList ≠ "# a\n".toList :=
  ⟨fun char res line h => commentLine_pos h char, by decide, by decide, by decide⟩

/-- Witness for C10: a line that already carries the marker and matches
a pattern is prefixed again. -/
theorem fv_C10_w :
    commentLine ['#', ' '] [.relit ['a']] "# a\n".toList =
      (['#', ' '] ++ "# a\n".toList, true) :=
  fv_C10.1 ['#', ' '] [.relit ['a']] "# a\n".toList
    ⟨.relit ['a'], by decide, by decide⟩

/-- Claim C6: when no pattern of a replace/comment/comment-out call
matches anywhere (for the whole-content operations: in the content; for
the line-scoped operations: in any processed line), no commit event
occurs and the file's bytes are unchanged.  A pattern that fails to
compile matches nothing; in that case the operation errors out, still
without committing. -/
theorem fv_C6 :
    (∀ (rs : List Replacer) (n : Int) (C : List Char),
        (∀ r ∈ rs, patMatches r.Search C = false) →
        Ev.commit ∉ (Editer.ReplaceN rs n C).1 ∧
          fileAfter C (Editer.ReplaceN rs n C).2 = C) ∧
      (∀ (es : List ReplacerAtLine) (n : Int) (C : List Char),
        (∀ e ∈ es, ∀ ℓ ∈ splitLines C,
          patMatches e.Line ℓ = false ∨ patMatches e.Search ℓ = false) →
        Ev.commit ∉ (Editer.ReplaceAtLineN es n C).1 ∧
          fileAfter C (Editer.ReplaceAtLineN es n C).2 = C) ∧
      (∀ (conf : Option ConfEditer) (ps : List Pattern) (C : List Char),
        (∀ p ∈ ps, ∀ ℓ ∈ splitLines C, patMatches p ℓ = false) →
        Ev.commit ∉ (Editer.Comment conf ps C).1 ∧
          fileAfter C (Editer.Comment conf ps C).2 = C) ∧
      (∀ (conf : Option ConfEditer) (ps : List Pattern) (C : List Char),
        (∀ p ∈ ps, ∀ ℓ ∈ splitLines C, patMatches p ℓ = false) →
        Ev.commit ∉ (Editer.CommentOut conf ps C).1 ∧
          fileAfter C (Editer.CommentOut conf ps C).2 = C) :=
  ⟨fun _ _ _ h => genReplace_noMatch_noCommit h,
    fun _ _ _ h => genReplaceAtLine_noMatch_noCommit h,
    fun _ _ _ h => Comment_noMatch_noCommit h,
    fun _ _ _ h => CommentOut_noMatch_noCommit h⟩

/-- Witness for C6: a `Replace` call whose pattern matches nothing
performs no commit and leaves the content unchanged. -/
theorem fv_C6_w :
    Ev.commit ∉ (Editer.ReplaceN [⟨.lit ['z'], []⟩] (-1) ['a', 'b']).1 ∧
      fileAfter ['a', 'b'] (Editer.ReplaceN [⟨.lit ['z'], []⟩] (-1) ['a', 'b']).2 =
        ['a', 'b'] :=
  fv_C6.1 [⟨.lit ['z'], []⟩] (-1) ['a', 'b'] (by decide)

lemma budget_of_pos {n : Int} (hn : 0 < n) (c : Nat) :
    budget n c = min n.toNat c := by
  unfold budget
  rw [if_neg (by omega)]

/-- Claim C4: for `ReplaceN` with a positive limit `n`, the limit is an
independent per-entry budget: each entry, applied in order over the
current content, replaces the first `min n (number of its matches)`
occurrences of its own pattern — not `n` matches shared across the
entries. -/
theorem fv_C4 (rs : List Replacer) (n : Int) (C : List Char) (hn : 0 < n)
    (hv : ∀ r ∈ rs, r.Search ≠ Pattern.invalid) :
    fileAfter C (Editer.ReplaceN rs n C).2 =
      rs.foldl
        (fun c r =>
          replaceFirstK (compileOk r.Search) r.Replace
            (min n.toNat (countM (compileOk r.Search) c)) c)
        C := by
  have hn0 : n ≠ 0 := by omega
  have hrw : goOut n rs C =
      rs.foldl
        (fun c r =>
          replaceFirstK (compileOk r.Search) r.Replace
            (min n.toNat (countM (compileOk r.Search) c)) c)
        C := by
    unfold goOut
    simp only [budget_of_pos hn]
  obtain ⟨fl, hgo, hc⟩ := goEntries_parts n hv C false
  show fileAfter C (Editer.genReplace rs n C).2 = _
  by_cases hfl : fl = true
  · have hp : (goOut n rs C, false || fl).2 = true := by
      rw [hfl]
      rfl
    rw [genReplace_commit hn0 hgo hp]
    show goOut n rs C = _
    exact hrw
  · have hfl' : fl = false := by simpa using hfl
    have hp : (goOut n rs C, false || fl).2 = false := by
      rw [hfl']
      rfl
    rw [genReplace_nocommit hn0 hgo hp]
    show C = _
    rw [← hrw]
    exact (hc hfl').symm

/-- Witness for C4 (spec §8, per-entry limit independence): two entries
each matching three times, limit 1: exactly one occurrence of each
entry's pattern is replaced (two replacements in total). -/
theorem fv_C4_w :
    countM (.relit ['a']) "aaabbb".toList = 3 ∧
      countM (.relit ['b']) "aaabbb".toList = 3 ∧
      fileAfter "aaabbb".toList
          (Editer.ReplaceN [⟨.lit ['a'], ['X']⟩, ⟨.lit ['b'], ['Y']⟩] 1
            "aaabbb".toList).2 =
        "XaaYbb".toList :=
  ⟨by decide, by decide,
    (fv_C4 [⟨.lit ['a'], ['X']⟩, ⟨.lit ['b'], ['Y']⟩] 1 "aaabbb".toList
      (by decide) (by decide)).trans (by decide)⟩

/-- Claim C5: for `ReplaceAtLineN` with a positive limit `n`, the limit
resets per line and per entry: on every line, every entry whose line
pattern matches the current state of the line replaces the first
`min n (number of its matches in that line)` occurrences — not `n`
matches across the whole file. -/
theorem fv_C5 (es : List ReplacerAtLine) (n : Int) (raw : List (List Char))
    (hn : 0 < n) (hraw : ∀ r ∈ raw, '\n' ∉ r)
    (hv : ∀ e ∈ es, e.Line ≠ Pattern.invalid ∧ e.Search ≠ Pattern.invalid) :
    fileAfter (linesJoin raw) (Editer.ReplaceAtLineN es n (linesJoin raw)).2 =
      ((raw.map lineOf).map
        (fun ℓ =>
          es.foldl
            (fun line e =>
              if reMatch (compileOk e.Line) line = true then
                replaceFirstK (compileOk e.Search) e.Replace
                  (min n.toNat (countM (compileOk e.Search) line)) line
              else line)
            ℓ)).flatten := by
  have hn0 : n ≠ 0 := by omega
  have hsplit : splitLines (linesJoin raw) = raw.map lineOf :=
    splitLines_linesJoin hraw
  have hline : ∀ ℓ : List Char,
      ralLineOut n (es.map fun e => (compileOk e.Line, compileOk e.Search, e.Replace)) ℓ =
        es.foldl
          (fun line e =>
            if reMatch (compileOk e.Line) line = true then
              replaceFirstK (compileOk e.Search) e.Replace
                (min n.toNat (countM (compileOk e.Search) line)) line
            else line)
          ℓ := by
    intro ℓ
    unfold ralLineOut
    rw [List.foldl_map]
    simp only [budget_of_pos hn]
  obtain ⟨fl, hral, hc⟩ := ralLines_parts n
    (es.map fun e => (compileOk e.Line, compileOk e.Search, e.Replace))
    (raw.map lineOf) false
  have hce := compileEntries_ok_of_valid hv
  have hmapeq : ((raw.map lineOf).map
      (ralLineOut n (es.map fun e => (compileOk e.Line, compileOk e.Search, e.Replace)))) =
      (raw.map lineOf).map
        (fun ℓ =>
          es.foldl
            (fun line e =>
              if reMatch (compileOk e.Line) line = true then
                replaceFirstK (compileOk e.Search) e.Replace
                  (min n.toNat (countM (compileOk e.Search) line)) line
              else line)
            ℓ) :=
    listMapCongr _ (fun ℓ _ => hline ℓ)
  have hral' : ralLines n (es.map fun e => (compileOk e.Line, compileOk e.Search, e.Replace))
      (splitLines (linesJoin raw)) false =
      (((raw.map lineOf).map
        (ralLineOut n (es.map fun e => (compileOk e.Line, compileOk e.Search, e.Replace)))).flatten,
        false || fl) := by
    rw [hsplit, hral]
  show fileAfter (linesJoin raw) (Editer.genReplaceAtLine es n (linesJoin raw)).2 = _
  by_cases hfl : fl = true
  · have hp : (ralLines n (es.map fun e => (compileOk e.Line, compileOk e.Search, e.Replace))
        (splitLines (linesJoin raw)) false).2 = true := by
      rw [hral', hfl]
      rfl
    rw [genReplaceAtLine_commit hn0 hce hp]
    show (ralLines n (es.map fun e => (compileOk e.Line, compileOk e.Search, e.Replace))
        (splitLines (linesJoin raw)) false).1 = _
    rw [hral']
    show ((raw.map lineOf).map
        (ralLineOut n (es.map fun e => (compileOk e.Line, compileOk e.Search, e.Replace)))).flatten = _
    rw [hmapeq]
  · have hfl' : fl = false := by simpa using hfl
    have hp : (ralLines n (es.map fun e => (compileOk e.Line, compileOk e.Search, e.Replace))
        (splitLines (linesJoin raw)) false).2 = false := by
      rw [hral', hfl']
      rfl
    rw [genReplaceAtLine_nocommit hn0 hce hp]
    show linesJoin raw = _
    rw [← hmapeq]
    have hid : (raw.map lineOf).map
        (ralLineOut n (es.map fun e => (compileOk e.Line, compileOk e.Search, e.Replace))) =
        (raw.map lineOf) :=
      (listMapCongr _ (fun ℓ hℓ => hc hfl' ℓ hℓ)).trans (List.map_id _)
    rw [hid]
    rfl

/-- Witness for C5 (spec §8, per-line-per-entry limit): one entry
matching three times in each of two qualifying lines, limit 2: exactly
two occurrences per line are replaced (four in total). -/
theorem fv_C5_w :
    countM (.relit ['a']) "aaa\n".toList = 3 ∧
      fileAfter "aaa\naaa\n".toList
          (Editer.ReplaceAtLineN [⟨.lit ['a'], .lit ['a'], ['X']⟩] 2
            "aaa\naaa\n".toList).2 =
        "XXa\nXXa\n".toList :=
  ⟨by decide,
    by
      have h := fv_C5 [⟨.lit ['a'], .lit ['a'], ['X']⟩] 2
        [['a', 'a', 'a'], ['a', 'a', 'a']] (by decide) (by decide) (by decide)
      have he : linesJoin [['a', 'a', 'a'], ['a', 'a', 'a']] =
          "aaa\naaa\n".toList := by decide
      rw [he] at h
      rw [h]
      decide⟩

lemma commentLine_out_commented (m : List Char) (res : List Re) (r : List Char) :
    (commentLine (m ++ [' ']) res (lineOf r)).1 =
      lineOf (commentedRaw m res r) := by
  rw [commentLine_out, lineOf_commentedRaw]
  rfl

lemma commentLine_flag_commented (m : List Char) (res : List Re) (r : List Char) :
    (commentLine (m ++ [' ']) res (lineOf r)).2 = markMatched res r := by
  rw [commentLine_flag]
  rfl

lemma linesJoin_eq (raw : List (List Char)) :
    linesJoin raw = (raw.map lineOf).flatten := rfl

/-- Claim C8, counterexample to the claim as stated: on the content
`"foo\nbar"` (matched line `"foo\n"` free of any marker-whitespace
ambiguity), `Comment` followed by `CommentOut` with pattern `foo` and
marker `#` yields `"foo\n"`, not the original bytes — the unterminated
final line `"bar"` is dropped by the line loop when `Comment`
commits. -/
theorem fv_C8_cex :
    fileAfter
        (fileAfter "foo\nbar".toList
          (Editer.Comment (some ⟨['#'], 0⟩) [.lit "foo".toList] "foo\nbar".toList).2)
        (Editer.CommentOut (some ⟨['#'], 0⟩) [.lit "foo".toList]
          (fileAfter "foo\nbar".toList
            (Editer.Comment (some ⟨['#'], 0⟩) [.lit "foo".toList]
              "foo\nbar".toList).2)).2
      = "foo\n".toList ∧
      "foo\n".toList ≠ "foo\nbar".toList :=
  ⟨by decide, by decide⟩

/-- Claim C8 (amended): over a content consisting of complete
newline-terminated lines, `Comment(ps)` followed by `CommentOut(ps)`
under the same non-empty comment marker (made of non-whitespace bytes)
restores the content byte-identical to the pre-`Comment` state,
provided every line matched by the patterns is free of
marker-whitespace ambiguity: it does not start with a whitespace byte
and does not already contain a match of
`[[:space:]]*marker[[:space:]]*`.  (The restriction to
newline-terminated content is forced by the dropped-final-line bug
witnessed for C2: an unterminated final line is deleted when `Comment`
commits.) -/
theorem fv_C8 (m : List Char) (mode : Nat) (ps : List Pattern)
    (raw : List (List Char))
    (hm : m ≠ []) (hmsp : ∀ c ∈ m, isSpaceCh c = false)
    (hraw : ∀ r ∈ raw, '\n' ∉ r)
    (hambig : ∀ r ∈ raw, (∃ p ∈ ps, patMatches p (lineOf r) = true) →
      (∀ c, (lineOf r).head? = some c → isSpaceCh c = false) ∧
        reMatch (.respaced m) (lineOf r) = false) :
    fileAfter
        (fileAfter (linesJoin raw)
          (Editer.Comment (some ⟨m, mode⟩) ps (linesJoin raw)).2)
        (Editer.CommentOut (some ⟨m, mode⟩) ps
          (fileAfter (linesJoin raw)
            (Editer.Comment (some ⟨m, mode⟩) ps (linesJoin raw)).2)).2
      = linesJoin raw := by
  by_cases hval : ∀ p ∈ ps, p ≠ Pattern.invalid
  · -- all patterns compile
    have hca := compileAll_ok_of_valid hval
    have hsplit := splitLines_linesJoin hraw
    have hcl := commentLines_eq (m ++ [' ']) (ps.map compileOk) (raw.map lineOf)
    have hamb' : ∀ r ∈ raw, markMatched (ps.map compileOk) r = true →
        (∀ c, (lineOf r).head? = some c → isSpaceCh c = false) ∧
          reMatch (.respaced m) (lineOf r) = false := by
      intro r hr hmark
      apply hambig r hr
      rcases List.any_eq_true.mp hmark with ⟨re, hre, hmre⟩
      rcases List.mem_map.mp hre with ⟨p, hp, hpe⟩
      refine ⟨p, hp, ?_⟩
      rw [patMatches_valid (hval p hp), hpe]
      exact hmre
    have hflag1 : (commentLines (m ++ [' ']) (ps.map compileOk)
        (splitLines (linesJoin raw))).2 =
        raw.any (markMatched (ps.map compileOk)) := by
      rw [hsplit, hcl]
      show (raw.map lineOf).any
          (fun ℓ => (commentLine (m ++ [' ']) (ps.map compileOk) ℓ).2) = _
      rw [List.any_map]
      exact listAnyCongr raw
        (fun r _ => commentLine_flag_commented m (ps.map compileOk) r)
    have hcont1 : (commentLines (m ++ [' ']) (ps.map compileOk)
        (splitLines (linesJoin raw))).1 =
        linesJoin (raw.map (commentedRaw m (ps.map compileOk))) := by
      rw [hsplit, hcl]
      show ((raw.map lineOf).map
          (fun ℓ => (commentLine (m ++ [' ']) (ps.map compileOk) ℓ).1)).flatten = _
      rw [List.map_map]
      have hmm1 : raw.map
          ((fun ℓ => (commentLine (m ++ [' ']) (ps.map compileOk) ℓ).1) ∘ lineOf) =
          raw.map (fun r => lineOf (commentedRaw m (ps.map compileOk) r)) :=
        listMapCongr raw
          (fun r _ => commentLine_out_commented m (ps.map compileOk) r)
      rw [hmm1, linesJoin_eq, List.map_map]
      rfl
    have hvalid2 : ∀ e ∈ ps.map (fun v => (⟨v, .spacedLit m, []⟩ : ReplacerAtLine)),
        e.Line ≠ Pattern.invalid ∧ e.Search ≠ Pattern.invalid := by
      intro e he
      rcases List.mem_map.mp he with ⟨p, hp, hpe⟩
      subst hpe
      exact ⟨hval p hp, by simp⟩
    have hces : compileEntries (ps.map (fun v => (⟨v, .spacedLit m, []⟩ : ReplacerAtLine))) =
        .ok ((ps.map compileOk).map (fun re => (re, Re.respaced m, ([] : List Char)))) := by
      rw [compileEntries_ok_of_valid hvalid2, List.map_map, List.map_map]
      rfl
    by_cases hAny : raw.any (markMatched (ps.map compileOk)) = true
    · -- at least one line is commented; CommentOut restores every line
      have hres1 := @Comment_commit m mode ps (linesJoin raw) hm _ hca
        (hflag1.trans hAny)
      rw [hres1, hcont1]
      show fileAfter (linesJoin (raw.map (commentedRaw m (ps.map compileOk))))
          (Editer.CommentOut (some ⟨m, mode⟩) ps
            (linesJoin (raw.map (commentedRaw m (ps.map compileOk))))).2 = linesJoin raw
      rw [CommentOut_unfold hm]
      have hraw' : ∀ r' ∈ raw.map (commentedRaw m (ps.map compileOk)), '\n' ∉ r' := by
        intro r' hr'
        rcases List.mem_map.mp hr' with ⟨r, hr, hpe⟩
        subst hpe
        unfold commentedRaw
        by_cases hmark : markMatched (ps.map compileOk) r = true
        · rw [if_pos hmark]
          intro hmem
          rcases List.mem_append.mp hmem with h | h
          · exact absurd (hmsp _ h) (by decide)
          · rcases List.mem_cons.mp h with h | h
            · exact absurd h (by decide)
            · exact hraw r hr h
        · rw [if_neg hmark]
          exact hraw r hr
      have hsplit' := splitLines_linesJoin hraw'
      have hlineshape : (raw.map (commentedRaw m (ps.map compileOk))).map lineOf =
          raw.map (fun r => lineOf (commentedRaw m (ps.map compileOk) r)) := by
        rw [List.map_map]
        rfl
      have hralc := ralLines_after_comment hm hmsp raw false hamb'
      have hflag2 : (ralLines 1
          ((ps.map compileOk).map fun re => (re, Re.respaced m, ([] : List Char)))
          (splitLines (linesJoin (raw.map (commentedRaw m (ps.map compileOk)))))
          false).2 = true := by
        rw [hsplit', hlineshape, hralc]
        show (false || raw.any (markMatched (ps.map compileOk))) = true
        rw [hAny]
        rfl
      have h2 := @genReplaceAtLine_commit _ 1
        (linesJoin (raw.map (commentedRaw m (ps.map compileOk)))) (by decide) _
        hces hflag2
      show fileAfter (linesJoin (raw.map (commentedRaw m (ps.map compileOk))))
          (Editer.genReplaceAtLine
            (ps.map (fun v => (⟨v, .spacedLit m, []⟩ : ReplacerAtLine))) 1
            (linesJoin (raw.map (commentedRaw m (ps.map compileOk))))).2 = linesJoin raw
      rw [h2]
      show (ralLines 1
          ((ps.map compileOk).map fun re => (re, Re.respaced m, ([] : List Char)))
          (splitLines (linesJoin (raw.map (commentedRaw m (ps.map compileOk)))))
          false).1 = linesJoin raw
      rw [hsplit', hlineshape, hralc]
    · -- nothing matched: neither operation commits
      have hAnyF : raw.any (markMatched (ps.map compileOk)) = false := by
        simpa using hAny
      have hres1 := @Comment_nocommit m mode ps (linesJoin raw) hm _ hca
        (hflag1.trans hAnyF)
      rw [hres1]
      show fileAfter (linesJoin raw)
          (Editer.CommentOut (some ⟨m, mode⟩) ps (linesJoin raw)).2 = linesJoin raw
      rw [CommentOut_unfold hm]
      have hnm : ∀ ℓ ∈ splitLines (linesJoin raw),
          ∀ ce ∈ (ps.map compileOk).map (fun re => (re, Re.respaced m, ([] : List Char))),
          reMatch ce.1 ℓ = false ∨ reMatch ce.2.1 ℓ = false := by
        intro ℓ hℓ ce hce2
        rcases List.mem_map.mp hce2 with ⟨re, hre, hpe⟩
        subst hpe
        left
        rw [hsplit] at hℓ
        rcases List.mem_map.mp hℓ with ⟨r, hr, hpe⟩
        subst hpe
        have h3 : markMatched (ps.map compileOk) r = false := by
          have := List.any_eq_false.mp hAnyF r hr
          simpa using this
        have h4 := List.any_eq_false.mp h3 re hre
        simpa using h4
      have hflag3 : (ralLines 1
          ((ps.map compileOk).map fun re => (re, Re.respaced m, ([] : List Char)))
          (splitLines (linesJoin raw)) false).2 = false := by
        rw [@ralLines_noMatch 1 _ (splitLines (linesJoin raw)) hnm false]
      have h2 := @genReplaceAtLine_nocommit _ 1 (linesJoin raw) (by decide) _
        hces hflag3
      show fileAfter (linesJoin raw)
          (Editer.genReplaceAtLine
            (ps.map (fun v => (⟨v, .spacedLit m, []⟩ : ReplacerAtLine))) 1
            (linesJoin raw)).2 = linesJoin raw
      rw [h2]
      rfl
  · -- some pattern fails to compile: both operations error out unchanged
    push_neg at hval
    obtain ⟨p, hp, hpe⟩ := hval
    have hcerr := @Comment_unfold_err m mode ps (linesJoin raw) hm _
      (compileAll_error_of_invalid ⟨p, hp, hpe⟩)
    rw [hcerr]
    show fileAfter (linesJoin raw)
        (Editer.CommentOut (some ⟨m, mode⟩) ps (linesJoin raw)).2 = linesJoin raw
    rw [CommentOut_unfold hm]
    subst hpe
    have hee : compileEntries (ps.map (fun v => (⟨v, .spacedLit m, []⟩ : ReplacerAtLine))) =
        .error .patternErr :=
      compileEntries_error_of_invalid
        ⟨⟨Pattern.invalid, .spacedLit m, []⟩, List.mem_map_of_mem _ hp, Or.inl rfl⟩
    have h2 := @genReplaceAtLine_unfold_err _ 1 (linesJoin raw) (by decide) _ hee
    show fileAfter (linesJoin raw)
        (Editer.genReplaceAtLine
          (ps.map (fun v => (⟨v, .spacedLit m, []⟩ : ReplacerAtLine))) 1
          (linesJoin raw)).2 = linesJoin raw
    rw [h2]
    rfl

/-- Witness for C8: commenting and uncommenting `"abc\n"` with pattern
`b` and marker `#` restores the original bytes. -/
theorem fv_C8_w :
    fileAfter
        (fileAfter "abc\n".toList
          (Editer.Comment (some ⟨['#'], 0⟩) [.lit ['b']] "abc\n".toList).2)
        (Editer.CommentOut (some ⟨['#'], 0⟩) [.lit ['b']]
          (fileAfter "abc\n".toList
            (Editer.Comment (some ⟨['#'], 0⟩) [.lit ['b']] "abc\n".toList).2)).2
      = "abc\n".toList := by
  have h := fv_C8 ['#'] 0 [.lit ['b']] [['a', 'b', 'c']] (by decide) (by decide)
    (by decide) (by decide)
  have he : linesJoin [['a', 'b', 'c']] = "abc\n".toList := by decide
  rw [he] at h
  exact h

end Fileutil
